import Mathlib

/-!
Verification development for the rsm-rag-service repository.

The Python sources under src/api/app are shallowly embedded below:
pure functions become Lean functions, stateful code becomes explicit
state passing, machine floats become rationals (ℚ) with exact
arithmetic, fallible code returns Option or Except.  External
collaborators (Redis, Qdrant, the OpenAI client, rank_bm25, numpy,
cachetools, wall clocks and UUID generators) are modeled as explicit
parameters or as documented data structures, exactly at the call
boundary the Python code uses.
-/

namespace Rag

/-! ## Python string helpers (str.split, str.strip, slicing) -/

/-- Model of Python str.split() with no arguments: split on runs of
whitespace, discarding empty pieces.  Implemented over the character
list. -/
def pyWordsAux : List Char → List Char → List String
  | [], acc => if acc.isEmpty then [] else [String.mk acc.reverse]
  | c :: r, acc =>
    if c.isWhitespace then
      if acc.isEmpty then pyWordsAux r [] else String.mk acc.reverse :: pyWordsAux r []
    else pyWordsAux r (c :: acc)

/-- Python text.split() (whitespace words). -/
def pyWords (s : String) : List String := pyWordsAux s.data []

/-- Python len(text.split()), the word count used by the chunker. -/
def wc (s : String) : Nat := (pyWords s).length

/-- Model of Python str.strip(): drop leading and trailing whitespace. -/
def pyStrip (s : String) : String :=
  String.mk (((s.data.dropWhile Char.isWhitespace).reverse.dropWhile Char.isWhitespace).reverse)

/-- Model of Python str.lower() (per-character lowering; the sources
only ever lower ASCII identifiers and questions). -/
def pyLower (s : String) : String := String.mk (s.data.map Char.toLower)

/-- Python s[-k:] for k > 0: the last min(k, len) characters.  This is
the slice the paragraph chunker applies to carry its overlap. -/
def takeLastChars (k : Nat) (s : String) : String :=
  String.mk (s.data.drop (s.data.length - k))

/-- Last n elements of a list (Python l[-n:] for n > 0). -/
def listTakeLast (n : Nat) (l : List α) : List α := l.drop (l.length - n)

/-- Python sep.join(parts). -/
def joinSep (sep : String) : List String → String
  | [] => ""
  | [x] => x
  | x :: y :: xs => x ++ sep ++ joinSep sep (y :: xs)

/-- The Prop "a is a string prefix of b". -/
def StrPre (a b : String) : Prop := ∃ t : String, a ++ t = b

/-- Deciding StrPre through the character lists. -/
instance (a b : String) : Decidable (StrPre a b) :=
  decidable_of_iff (b.data.take a.data.length = a.data)
    (by
      constructor
      · intro h
        refine ⟨String.mk (b.data.drop a.data.length), ?_⟩
        apply String.ext
        rw [String.data_append]
        show a.data ++ b.data.drop a.data.length = b.data
        nth_rewrite 1 [← h]
        exact List.take_append_drop _ _
      · rintro ⟨t, ht⟩
        have hd : b.data = a.data ++ t.data := by
          rw [← ht, String.data_append]
        rw [hd]
        exact List.take_left a.data t.data)

/-! ## Semantic chunker (src/api/app/utils/semantic_chunking.py)

SemanticChunk is embedded with a ghost field `parts`, recording the
accumulated current_chunk list at the moment a chunk is created; its
text is always joinSep of those parts, matching the "\n\n".join /
" ".join in the source. -/

structure SChunk where
  parts : List String
  text : String
  title : Option String := none
  sectionPath : Option String := none
  page : Option Nat := none
  chunkIndex : Nat := 0
  wordCount : Nat := 0
  metaSectionLevel : Option Nat := none
  metaHasTitleContext : Option Bool := none
deriving DecidableEq

/-- Build the chunk a flush creates: text is sep.join(parts) and the
word count follows SemanticChunk.__post_init__ (recomputed from the
text when the passed count is 0). -/
def mkFlushChunk (parts : List String) (sep : String) (idx size : Nat) : SChunk :=
  let t := joinSep sep parts
  { parts := parts, text := t, chunkIndex := idx,
    wordCount := if size = 0 then wc t else size }

/-- Loop of SemanticChunker._chunk_by_paragraphs (lines 223-264).
State: remaining paragraphs, current_chunk, current_size, chunk_index.
On overflow the chunk is flushed and, when chunk_overlap > 0, the last
chunk_overlap CHARACTERS of the flushed text (chunk_text[-overlap:])
seed the next chunk. -/
def chunkParasAux (csize ov : Nat) : List String → List String → Nat → Nat → List SChunk
  | [], cur, size, idx =>
    if cur.isEmpty then [] else [mkFlushChunk cur "\n\n" idx size]
  | p :: ps, cur, size, idx =>
    let w := wc p
    if size + w > csize ∧ ¬ cur.isEmpty then
      let c := mkFlushChunk cur "\n\n" idx size
      if 0 < ov then
        let otext := takeLastChars ov c.text
        c :: chunkParasAux csize ov ps [otext, p] (wc otext + w) (idx + 1)
      else
        c :: chunkParasAux csize ov ps [p] w (idx + 1)
    else
      chunkParasAux csize ov ps (cur ++ [p]) (size + w) idx

/-- SemanticChunker._chunk_by_paragraphs. -/
def chunkByParagraphs (csize ov : Nat) (paragraphs : List String) : List SChunk :=
  chunkParasAux csize ov paragraphs [] 0 0

/-- Loop of SemanticChunker._chunk_by_sentences (lines 266-313).
Sentences are stripped and empty ones skipped; on overflow with
chunk_overlap > 0 and more than one accumulated sentence, the last two
sentences are carried into the next chunk. -/
def chunkSentsAux (csize ov : Nat) : List String → List String → Nat → Nat → List SChunk
  | [], cur, size, idx =>
    if cur.isEmpty then [] else [mkFlushChunk cur " " idx size]
  | s :: ss, cur, size, idx =>
    let st := pyStrip s
    if st = "" then chunkSentsAux csize ov ss cur size idx
    else
      let w := wc st
      if size + w > csize ∧ ¬ cur.isEmpty then
        let c := mkFlushChunk cur " " idx size
        if 0 < ov ∧ 1 < cur.length then
          let overl := listTakeLast 2 cur
          c :: chunkSentsAux csize ov ss (overl ++ [st]) ((overl.map wc).sum + w) (idx + 1)
        else
          c :: chunkSentsAux csize ov ss [st] w (idx + 1)
      else
        chunkSentsAux csize ov ss (cur ++ [st]) (size + w) idx

/-- Model of re.split applied with the sentence boundary pattern
(lookbehind [.!?] then one or more whitespace).  The fuel argument is
always called with (length + 1), which suffices because every step
consumes at least one character. -/
def splitSentAux : Nat → List Char → List Char → List String
  | 0, _, acc => [String.mk acc.reverse]
  | _ + 1, [], acc => [String.mk acc.reverse]
  | fuel + 1, c :: rest, acc =>
    if c.isWhitespace ∧ (acc.head? = some '.' ∨ acc.head? = some '!' ∨ acc.head? = some '?') then
      String.mk acc.reverse :: splitSentAux fuel (rest.dropWhile Char.isWhitespace) []
    else splitSentAux fuel rest (c :: acc)

/-- Sentence splitting used by _chunk_by_sentences. -/
def splitSentences (s : String) : List String := splitSentAux (s.data.length + 1) s.data []

/-- SemanticChunker._chunk_by_sentences, including the regex split. -/
def chunkBySentences (csize ov : Nat) (text : String) : List SChunk :=
  chunkSentsAux csize ov (splitSentences text) [] 0 0

/-- Index of the last occurrence of a character in a list. -/
def lastIdxOf (a : Char) (l : List Char) : Option Nat :=
  (l.reverse.findIdx? (fun c => c = a)).map (fun j => l.length - 1 - j)

/-- Model of re.split with the paragraph boundary pattern (newline, any
whitespace, newline): at a newline, the separator extends to the last
newline of the maximal whitespace run.  Fuel as in splitSentAux. -/
def splitParasAux : Nat → List Char → List Char → List String
  | 0, _, acc => [String.mk acc.reverse]
  | _ + 1, [], acc => [String.mk acc.reverse]
  | fuel + 1, c :: rest, acc =>
    if c = '\n' then
      let ws := rest.takeWhile Char.isWhitespace
      match lastIdxOf '\n' ws with
      | some j => String.mk acc.reverse :: splitParasAux fuel (rest.drop (j + 1)) []
      | none => splitParasAux fuel rest ('\n' :: acc)
    else splitParasAux fuel rest (c :: acc)

/-- Paragraph splitting used by _chunk_plain_text. -/
def splitParagraphs (s : String) : List String := splitParasAux (s.data.length + 1) s.data []

/-- SemanticChunker._chunk_plain_text. -/
def chunkPlainText (csize ov : Nat) (respectBoundaries : Bool) (text : String) : List SChunk :=
  if respectBoundaries then
    let ps := splitParagraphs text
    if 1 < ps.length then chunkByParagraphs csize ov ps else chunkBySentences csize ov text
  else chunkBySentences csize ov text

/-! ## HTML title extraction and cleaning (semantic_chunking.py lines 103-136)

The regex patterns of the source are deterministic once backtracking is
resolved, and are implemented here as direct scanners:
  html_title_pattern  = <h([1-6])[^>]*>(.*?)</h[1-6]>   (IGNORECASE, no DOTALL)
  tag removal         = <[^>]+>
  script/style blocks = <script.*?>.*?</script>          (DOTALL, case sensitive)
  whitespace collapse = \s+  replaced by a single space
Fuel arguments are always instantiated with (length + 1); every step
consumes at least one character, so the fuel never runs out. -/

/-- A digit 1..6 as in h1..h6. -/
def isH16 (c : Char) : Bool :=
  c = '1' || c = '2' || c = '3' || c = '4' || c = '5' || c = '6'

/-- The letter h, case-insensitively. -/
def isHChar (c : Char) : Bool := c = 'h' || c = 'H'

/-- Scan for the closing tag of the lazy group (.*?)</h[1-6]>.  The dot
does not match a newline (no DOTALL), so the scan aborts at one. -/
def findHtmlClose : Nat → List Char → List Char → Option (List Char × List Char)
  | 0, _, _ => none
  | fuel + 1, cs, acc =>
    match cs with
    | [] => none
    | c :: rest =>
      if c = '<' && (match rest with
          | '/' :: h :: d :: '>' :: _ => isHChar h && isH16 d
          | _ => false) then
        some (acc.reverse, rest.drop 4)
      else if c = '\n' then none
      else findHtmlClose fuel rest (c :: acc)

/-- Try to match the html title pattern at the head of the list.
Returns (level, raw inner group, rest after the whole match). -/
def matchH (cs : List Char) : Option (Nat × List Char × List Char) :=
  match cs with
  | '<' :: h :: d :: rest =>
    if isHChar h ∧ isH16 d then
      let attrs := rest.takeWhile (fun c => c ≠ '>')
      match rest.drop attrs.length with
      | '>' :: body =>
        match findHtmlClose (body.length + 1) body [] with
        | some (inner, after) => some (d.toNat - '0'.toNat, inner, after)
        | none => none
      | _ => none
    else none
  | _ => none

/-- Model of re.sub with the tag pattern <[^>]+>, replacing each match
with the given replacement characters (empty for title text cleaning,
a single space in _clean_html_preserve_structure). -/
def replaceTagsAux (rep : List Char) : Nat → List Char → List Char → List Char
  | 0, cs, acc => acc.reverse ++ cs
  | _ + 1, [], acc => acc.reverse
  | fuel + 1, c :: rest, acc =>
    if c = '<' then
      let inside := rest.takeWhile (fun x => x ≠ '>')
      match rest.drop inside.length with
      | '>' :: after =>
        if 1 ≤ inside.length then replaceTagsAux rep fuel after (rep.reverse ++ acc)
        else replaceTagsAux rep fuel rest ('<' :: acc)
      | _ => replaceTagsAux rep fuel rest ('<' :: acc)
    else replaceTagsAux rep fuel rest (c :: acc)

/-- re.sub of <[^>]+> with a replacement string. -/
def replaceTags (rep : String) (s : String) : String :=
  String.mk (replaceTagsAux rep.data (s.data.length + 1) s.data [])

/-- _extract_html_titles: finditer of the title pattern, collecting
(level, cleaned title text, match position); the source sorts by
position, which the scan already produces. -/
def findHtmlTitlesAux : Nat → List Char → Nat → List (Nat × String × Nat) → List (Nat × String × Nat)
  | 0, _, _, acc => acc.reverse
  | fuel + 1, cs, pos, acc =>
    match cs with
    | [] => acc.reverse
    | _ :: rest =>
      match matchH cs with
      | some (lvl, inner, after) =>
        let consumed := cs.length - after.length
        let title := pyStrip (replaceTags "" (String.mk inner))
        findHtmlTitlesAux fuel after (pos + consumed) ((lvl, title, pos) :: acc)
      | none => findHtmlTitlesAux fuel rest (pos + 1) acc

/-- SemanticChunker._extract_html_titles. -/
def findHtmlTitles (s : String) : List (Nat × String × Nat) :=
  findHtmlTitlesAux (s.data.length + 1) s.data 0 []

/-- The digit character of a heading level 1..6. -/
def levelDigit (lvl : Nat) : Char := Char.ofNat ('0'.toNat + lvl)

/-- re.sub of the title pattern with the sentinel replacement
[TITLE_L<level>] <raw group 2> [/TITLE]. -/
def subHtmlTitlesAux : Nat → List Char → List Char → List Char
  | 0, cs, acc => acc.reverse ++ cs
  | _ + 1, [], acc => acc.reverse
  | fuel + 1, c :: rest, acc =>
    match matchH (c :: rest) with
    | some (lvl, inner, after) =>
      let rep := "[TITLE_L".data ++ [levelDigit lvl] ++ "] ".data ++ inner ++ " [/TITLE]".data
      subHtmlTitlesAux fuel after (rep.reverse ++ acc)
    | none => subHtmlTitlesAux fuel rest (c :: acc)

/-- First suffix strictly after the first occurrence of sub. -/
def dropAfterSub (sub : List Char) : Nat → List Char → Option (List Char)
  | 0, _ => none
  | fuel + 1, cs =>
    if sub.isPrefixOf cs then some (cs.drop sub.length)
    else match cs with
      | [] => none
      | _ :: rest => dropAfterSub sub fuel rest

/-- Model of re.sub removing <tag.*?>.*?</tag> blocks with DOTALL
(used for script and style). -/
def removeBlocksAux (tag : List Char) : Nat → List Char → List Char → List Char
  | 0, cs, acc => acc.reverse ++ cs
  | _ + 1, [], acc => acc.reverse
  | fuel + 1, c :: rest, acc =>
    if c = '<' ∧ tag.isPrefixOf rest then
      let afterTag := rest.drop tag.length
      match dropAfterSub ['>'] (afterTag.length + 1) afterTag with
      | some afterGt =>
        match dropAfterSub ('<' :: '/' :: tag ++ ['>']) (afterGt.length + 1) afterGt with
        | some after2 => removeBlocksAux tag fuel after2 acc
        | none => removeBlocksAux tag fuel rest ('<' :: acc)
      | none => removeBlocksAux tag fuel rest ('<' :: acc)
    else removeBlocksAux tag fuel rest (c :: acc)

/-- re.sub of a script/style block pattern with the empty string. -/
def removeBlocks (tag : String) (s : String) : String :=
  String.mk (removeBlocksAux tag.data (s.data.length + 1) s.data [])

/-- Model of re.sub of \s+ with a single space. -/
def collapseWsAux : Nat → List Char → List Char
  | 0, cs => cs
  | _ + 1, [] => []
  | fuel + 1, c :: rest =>
    if c.isWhitespace then ' ' :: collapseWsAux fuel (rest.dropWhile Char.isWhitespace)
    else c :: collapseWsAux fuel rest

/-- Whitespace collapsing. -/
def collapseWs (s : String) : String := String.mk (collapseWsAux (s.data.length + 1) s.data)

/-- SemanticChunker._clean_html_preserve_structure: title sentinels,
script/style removal, tag removal, whitespace collapse, strip. -/
def cleanHtmlPreserveStructure (s : String) : String :=
  let a := String.mk (subHtmlTitlesAux (s.data.length + 1) s.data [])
  let b := removeBlocks "script" a
  let c := removeBlocks "style" b
  let d := replaceTags " " c
  pyStrip (collapseWs d)

/-! ## Section chunking with title bubbling (semantic_chunking.py 153-221, 315-324) -/

/-- Try to match the sentinel pattern
\[TITLE_L<level>\]\s*<escaped title>\s*\[/TITLE\] at the head of cs,
returning the length of the match.  Titles are stripped by extraction,
so the greedy whitespace skips are deterministic. -/
def matchMarkerAt (lvl : Nat) (title : List Char) (cs : List Char) : Option Nat :=
  let opening := "[TITLE_L".data ++ [levelDigit lvl] ++ "]".data
  if opening.isPrefixOf cs then
    let rest1 := cs.drop opening.length
    let ws1 := rest1.takeWhile Char.isWhitespace
    let rest2 := rest1.drop ws1.length
    if title.isPrefixOf rest2 then
      let rest3 := rest2.drop title.length
      let ws2 := rest3.takeWhile Char.isWhitespace
      let rest4 := rest3.drop ws2.length
      if "[/TITLE]".data.isPrefixOf rest4 then
        some (cs.length - (rest4.length - "[/TITLE]".data.length))
      else none
    else none
  else none

/-- re.search of the sentinel pattern: first match position and end. -/
def searchMarkerAux (lvl : Nat) (title : List Char) : Nat → List Char → Nat → Option (Nat × Nat)
  | 0, _, _ => none
  | fuel + 1, cs, pos =>
    match matchMarkerAt lvl title cs with
    | some len => some (pos, pos + len)
    | none =>
      match cs with
      | [] => none
      | _ :: rest => searchMarkerAux lvl title fuel rest (pos + 1)

/-- re.search of the sentinel pattern over the whole text. -/
def searchMarker (lvl : Nat) (title : String) (text : String) : Option (Nat × Nat) :=
  searchMarkerAux lvl title.data (text.data.length + 1) text.data 0

/-- Python text[a:b] on character indices. -/
def pySlice (s : String) (a b : Nat) : String := String.mk ((s.data.take b).drop a)

/-- SemanticChunker._chunk_text_simple: fixed word windows of size
chunk_size advancing by (chunk_size - chunk_overlap).  The source
assumes overlap < size (defaults 200 < 800); a non-positive step would
make Python range raise or produce nothing, modeled as no chunks. -/
def chunkTextSimpleAux (csize step : Nat) : Nat → List String → Nat → List String
  | 0, _, _ => []
  | fuel + 1, words, i =>
    if i < words.length then
      joinSep " " ((words.drop i).take csize) :: chunkTextSimpleAux csize step fuel words (i + step)
    else []

/-- SemanticChunker._chunk_text_simple. -/
def chunkTextSimple (csize ov : Nat) (text : String) : List String :=
  let words := pyWords text
  if csize ≤ ov then []
  else chunkTextSimpleAux csize (csize - ov) (words.length + 1) words 0

/-- One resolved section: (optional title, level, section text). -/
def sectionsOf (text : String) (positions : List (Nat × Nat × Nat × String)) : List (Option String × Nat × String) :=
  (positions.enum.map (fun p =>
    let se := p.2
    let nextStart := match positions[p.1 + 1]? with
      | some q => q.1
      | none => text.data.length
    (some se.2.2.2, se.2.2.1, pyStrip (pySlice text se.2.1 nextStart)))).filter
    (fun s => s.2.2 ≠ "")

/-- Ordering used by Python title_positions.sort() on the tuples
(start, end, level, title); start positions are distinct in practice
and the lexicographic tail matches Python tuple comparison. -/
def posLe (a b : Nat × Nat × Nat × String) : Bool :=
  if a.1 ≠ b.1 then a.1 ≤ b.1
  else if a.2.1 ≠ b.2.1 then a.2.1 ≤ b.2.1
  else if a.2.2.1 ≠ b.2.2.1 then a.2.2.1 ≤ b.2.2.1
  else a.2.2.2 ≤ b.2.2.2

/-- SemanticChunker._chunk_by_sections. -/
def chunkBySections (csize ov : Nat) (bubbling : Bool) (text : String)
    (titles : List (Nat × String × Nat)) : List SChunk :=
  let positions := List.insertionSort (fun a b => posLe a b = true)
    (titles.filterMap (fun t =>
      match searchMarker t.1 t.2.1 text with
      | some (s, e) => some (s, e, t.1, t.2.1)
      | none => none))
  let sections0 := sectionsOf text positions
  let sections := if sections0.isEmpty then [(none, 0, text)] else sections0
  let build := fun (sec : Option String × Nat × String) (idx0 : Nat) =>
    let currentTitles0 := (titles.filter (fun t => t.1 ≤ sec.2.1)).map (fun t => t.2.1)
    let currentTitles :=
      if bubbling then
        match sec.1 with
        | some st => if st ≠ "" ∧ st ∉ currentTitles0 then currentTitles0 ++ [st] else currentTitles0
        | none => currentTitles0
      else []
    let pieces := chunkTextSimple csize ov sec.2.2
    pieces.enum.map (fun pc =>
      let enhanced :=
        if bubbling ∧ ¬ currentTitles.isEmpty then
          "[Context: " ++ joinSep " > " (listTakeLast 2 currentTitles) ++ "]\n\n" ++ pc.2
        else pc.2
      ({ parts := [pc.2], text := enhanced, title := sec.1,
         sectionPath := if ¬ currentTitles.isEmpty then some (joinSep " > " currentTitles) else none,
         chunkIndex := idx0 + pc.1,
         wordCount := wc enhanced,
         metaSectionLevel := some sec.2.1,
         metaHasTitleContext := some (bubbling && ¬ currentTitles.isEmpty) } : SChunk))
  (sections.foldl (fun (acc : List SChunk × Nat) sec =>
    let cs := build sec acc.2
    (acc.1 ++ cs, acc.2 + cs.length)) ([], 0)).1

/-- Document types embedded here.  The markdown branch of chunk_text is
not embedded; all claims are settled on text and html inputs. -/
inductive DocType where
  | text
  | html
deriving DecidableEq

/-- SemanticChunker._chunk_html. -/
def chunkHtml (csize ov : Nat) (respectBoundaries bubbling : Bool) (s : String) : List SChunk :=
  let titles := findHtmlTitles s
  let cleaned := cleanHtmlPreserveStructure s
  if ¬ titles.isEmpty ∧ bubbling then chunkBySections csize ov bubbling cleaned titles
  else chunkPlainText csize ov respectBoundaries cleaned

/-- SemanticChunker.chunk_text, for the embedded document types. -/
def chunkText (csize ov : Nat) (respectBoundaries bubbling : Bool)
    (dtype : DocType) (text : String) : List SChunk :=
  match dtype with
  | .html => chunkHtml csize ov respectBoundaries bubbling text
  | .text => chunkPlainText csize ov respectBoundaries text

/-! ## Generic Python values and association lists -/

/-- JSON-serializable Python values as they occur in the embedded code
(event payloads, BM25 documents). -/
inductive PyVal where
  | str : String → PyVal
  | num : ℚ → PyVal
  | bool : Bool → PyVal
  | null : PyVal
  | obj : List (String × PyVal) → PyVal

/-- A Python dict with string keys, in insertion order. -/
abbrev PyDict := List (String × PyVal)

/-- Lookup in an insertion-ordered dict / Redis hash. -/
def alistGet [DecidableEq κ] (l : List (κ × α)) (k : κ) : Option α :=
  (l.find? (fun p => p.1 = k)).map (fun p => p.2)

/-- Python dict assignment / Redis HSET of one field: replace the value
in place when the key exists, append otherwise. -/
def alistSet [DecidableEq κ] (l : List (κ × α)) (k : κ) (v : α) : List (κ × α) :=
  match l with
  | [] => [(k, v)]
  | p :: rest => if p.1 = k then (k, v) :: rest else p :: alistSet rest k v

/-! ## Redis job registry (src/api/app/services/redis_job_manager.py)

Redis stores hashes of strings.  The per-field str()/parse round trips
performed by the source (str of float and int on write, float()/int()
on read, json.dumps/json.loads for metadata, JobStatus(value) for the
enum) are exact inverses, so the hash is modeled with typed optional
fields; an absent field models a key filtered out before HSET.
Wall-clock reads (time.time()) are explicit parameters. -/

inductive JobStatus where
  | queued
  | running
  | success
  | error
  | cancelled
deriving DecidableEq

/-- JobStatus.value. -/
def statusValue : JobStatus → String
  | .queued => "queued"
  | .running => "running"
  | .success => "success"
  | .error => "error"
  | .cancelled => "cancelled"

/-- The JobStatus(str) enum constructor; an unknown string raises,
modeled as none. -/
def statusOfString (s : String) : Option JobStatus :=
  if s = "queued" then some .queued
  else if s = "running" then some .running
  else if s = "success" then some .success
  else if s = "error" then some .error
  else if s = "cancelled" then some .cancelled
  else none

/-- RedisJobState (redis_job_manager.py lines 24-45).  Metadata is the
parsed json object; the repository only ever stores string values. -/
structure JobState where
  job_id : String
  status : JobStatus
  stage : String
  progress : ℚ
  message : Option String
  chunks_created : Nat
  created_at : ℚ
  updated_at : ℚ
  retry_count : Nat
  max_retries : Nat
  timeout_seconds : Nat
  metadata : List (String × String)
deriving DecidableEq

/-- The Redis hash at key job:{id}.  A none field is absent from the
hash. -/
structure JobHash where
  job_id : Option String
  status : Option String
  stage : Option String
  progress : Option ℚ
  message : Option String
  chunks_created : Option Nat
  created_at : Option ℚ
  updated_at : Option ℚ
  retry_count : Option Nat
  max_retries : Option Nat
  timeout_seconds : Option Nat
  metadata : Option (List (String × String))
deriving DecidableEq

/-- Serialization performed by create_job (lines 117-121): asdict,
status.value, json.dumps(metadata), then dropping None values.  Only
message can be None; metadata has been json-dumped already and is
always present. -/
def encodeJobCreate (j : JobState) : JobHash :=
  { job_id := some j.job_id, status := some (statusValue j.status),
    stage := some j.stage, progress := some j.progress,
    message := j.message, chunks_created := some j.chunks_created,
    created_at := some j.created_at, updated_at := some j.updated_at,
    retry_count := some j.retry_count, max_retries := some j.max_retries,
    timeout_seconds := some j.timeout_seconds, metadata := some j.metadata }

/-- Serialization performed by update_job (lines 190-196): asdict with
no None filtering.  redis-py raises DataError when mapping a None
value, so a None message makes the write fail (returns none). -/
def encodeJobUpdate (j : JobState) : Option JobHash :=
  match j.message with
  | none => none
  | some m =>
    some { job_id := some j.job_id, status := some (statusValue j.status),
           stage := some j.stage, progress := some j.progress,
           message := some m, chunks_created := some j.chunks_created,
           created_at := some j.created_at, updated_at := some j.updated_at,
           retry_count := some j.retry_count, max_retries := some j.max_retries,
           timeout_seconds := some j.timeout_seconds, metadata := some j.metadata }

/-- Deserialization performed by get_job (lines 148-168), followed by
the RedisJobState.__post_init__ defaults: a stored 0.0 timestamp is
replaced by the current clock (nowPost), absent metadata becomes the
empty dict.  A missing mandatory field or unknown status raises in
Python; the registry never writes such hashes, and it is modeled as
none. -/
def decodeJob (h : JobHash) (nowPost : ℚ) : Option JobState :=
  match h.job_id, h.status, h.stage, h.progress, h.chunks_created, h.created_at,
      h.updated_at, h.retry_count, h.max_retries, h.timeout_seconds with
  | some jid, some st, some stg, some pr, some cc, some ca, some ua, some rc, some mr, some ts =>
    match statusOfString st with
    | some status =>
      some { job_id := jid, status := status, stage := stg, progress := pr,
             message := h.message, chunks_created := cc,
             created_at := if ca = 0 then nowPost else ca,
             updated_at := if ua = 0 then nowPost else ua,
             retry_count := rc, max_retries := mr, timeout_seconds := ts,
             metadata := h.metadata.getD [] }
    | none => none
  | _, _, _, _, _, _, _, _, _, _ => none

/-- A published job event: (channel, payload). -/
abbrev PubEvent := String × PyDict

/-- The Redis state owned by the registry: job hashes by key, the
jobs:active set in iteration order, the pub/sub publish log, and the
per-job bounded event history lists. -/
structure RedisState where
  jobs : List (String × JobHash)
  active : List String
  published : List PubEvent
  history : List (String × List PyDict)
deriving Inhabited

/-- Key helpers of the source. -/
def jobKey (id : String) : String := "job:" ++ id

/-- RedisJobRegistry._publish_event: publish on the channel and lpush
into the history list trimmed to the last 100 events. -/
def publishEvent (st : RedisState) (id : String) (d : PyDict) : RedisState :=
  let hkey := "job:events:" ++ id ++ ":history"
  let old := (alistGet st.history hkey).getD []
  { st with published := st.published ++ [("job:events:" ++ id, d)],
            history := alistSet st.history hkey ((d :: old).take 100) }

/-- RedisJobRegistry.get_job. -/
def getJob (st : RedisState) (id : String) (nowPost : ℚ) : Option JobState :=
  match alistGet st.jobs (jobKey id) with
  | some h => decodeJob h nowPost
  | none => none

/-- SADD: set membership in iteration order. -/
def saddList (l : List String) (id : String) : List String :=
  if id ∈ l then l else l ++ [id]

/-- RedisJobRegistry.list_active_jobs (lines 278-294): read the first
limit members of jobs:active, decode each job, SREM the stale ids, and
return the jobs most-recently-updated first. -/
def listActiveJobs (st : RedisState) (limit : Nat) (nowPost : ℚ) : List JobState × RedisState :=
  let ids := st.active.take limit
  let jobs := ids.filterMap (fun i => getJob st i nowPost)
  let stale := ids.filter (fun i => (getJob st i nowPost).isNone)
  let sorted := List.insertionSort (fun a b => b.updated_at ≤ a.updated_at) jobs
  (sorted, { st with active := st.active.filter (fun i => ¬ i ∈ stale) })

/-- RedisJobRegistry.create_job (lines 93-141).  nowC and nowU are the
two time.time() reads of __post_init__; nowPost is the clock seen by
the get_job calls inside list_active_jobs; newId is the generated
job id.  Admission counts queued and running jobs among the first
(max_concurrent_jobs + 1) members of the active set and fails with the
"Maximum concurrent jobs" exception at or above the ceiling. -/
def createJob (st : RedisState) (maxConc timeout maxRetries : Nat) (newId : String)
    (nowC nowU nowPost : ℚ) : Except String (JobState × RedisState) :=
  let res := listActiveJobs st (maxConc + 1) nowPost
  let runningJobs := res.1.filter (fun j => j.status = .queued ∨ j.status = .running)
  if maxConc ≤ runningJobs.length then
    .error "Maximum concurrent jobs reached"
  else
    let job : JobState :=
      { job_id := newId, status := .queued, stage := "initialized", progress := 0,
        message := none, chunks_created := 0, created_at := nowC, updated_at := nowU,
        retry_count := 0, max_retries := maxRetries, timeout_seconds := timeout,
        metadata := [] }
    let st1 := res.2
    let st2 := { st1 with jobs := alistSet st1.jobs (jobKey newId) (encodeJobCreate job),
                          active := saddList st1.active newId }
    let st3 := publishEvent st2 newId
      [("type", .str "job_created"), ("job_id", .str newId),
       ("status", .str (statusValue job.status)), ("timestamp", .num job.created_at)]
    .ok (job, st3)

/-- An update_job patch: the keyword arguments passed to update_job; a
none field is an absent keyword.  The source converts a string status
through JobStatus(value), carried here as the enum. -/
structure JobPatch where
  status : Option JobStatus := none
  stage : Option String := none
  progress : Option ℚ := none
  message : Option String := none
  chunks_created : Option Nat := none
  retry_count : Option Nat := none
  max_retries : Option Nat := none
  timeout_seconds : Option Nat := none
  metadata : Option (List (String × String)) := none
deriving DecidableEq

/-- The message field after a patch. -/
def patchMessage (p : JobPatch) (cur : JobState) : Option String :=
  match p.message with
  | some m => some m
  | none => cur.message

/-- Field-wise application of the patch (lines 181-188), refreshing
updated_at with the current clock. -/
def applyPatch (cur : JobState) (p : JobPatch) (nowSet : ℚ) : JobState :=
  { job_id := cur.job_id,
    status := p.status.getD cur.status,
    stage := p.stage.getD cur.stage,
    progress := p.progress.getD cur.progress,
    message := patchMessage p cur,
    chunks_created := p.chunks_created.getD cur.chunks_created,
    created_at := cur.created_at,
    updated_at := nowSet,
    retry_count := p.retry_count.getD cur.retry_count,
    max_retries := p.max_retries.getD cur.max_retries,
    timeout_seconds := p.timeout_seconds.getD cur.timeout_seconds,
    metadata := p.metadata.getD cur.metadata }

/-- RedisJobRegistry.update_job (lines 170-211): read the current job,
apply the patch field-wise, write the full hash back and publish a
job_updated event.  Returns some (false, st) when the job is missing,
none when the HSET itself raises (None message), and some (true, st')
on success.  There is no check of the current status. -/
def updateJob (st : RedisState) (id : String) (p : JobPatch) (nowGet nowSet : ℚ) :
    Option (Bool × RedisState) :=
  match getJob st id nowGet with
  | none => some (false, st)
  | some cur =>
    let j := applyPatch cur p nowSet
    match encodeJobUpdate j with
    | none => none
    | some h =>
      let st1 := { st with jobs := alistSet st.jobs (jobKey id) h }
      let st2 := publishEvent st1 id
        [("type", .str "job_updated"), ("job_id", .str id),
         ("status", .str (statusValue j.status)), ("stage", .str j.stage),
         ("progress", .num j.progress),
         ("message", match j.message with | some m => .str m | none => .null),
         ("chunks_created", .num j.chunks_created), ("timestamp", .num j.updated_at)]
      some (true, st2)

/-! ## In-memory BM25 store (src/api/app/store/memory_bm25.py)

Python dict objects are heap references: InMemoryBM25.documents holds
references into an object heap, and search returns freshly allocated
copies (doc.copy()).  The heap is a growable cell array; allocation
appends.  The rank_bm25 BM25Okapi model is external, so its get_scores
is an explicit function parameter; fitting it is tracked as a flag. -/

structure Heap where
  cells : List PyDict

/-- Heap lookup. -/
def Heap.look (h : Heap) (r : Nat) : Option PyDict := h.cells[r]?

/-- Allocation of a fresh object. -/
def Heap.alloc (h : Heap) (d : PyDict) : Nat × Heap :=
  (h.cells.length, ⟨h.cells ++ [d]⟩)

/-- In-place mutation of an existing object (what a caller does when it
writes into a returned dict). -/
def Heap.mutate (h : Heap) (r : Nat) (d : PyDict) : Heap := ⟨h.cells.set r d⟩

/-- A word character of the \w class (ASCII portion; the indexed texts
are ASCII). -/
def isWordChar (c : Char) : Bool := c.isAlphanum || c = '_'

/-- InMemoryBM25._tokenize: findall of \b\w+\b over the lowered text,
i.e. the maximal runs of word characters. -/
def pyTokenizeAux : List Char → List Char → List String
  | [], acc => if acc.isEmpty then [] else [String.mk acc.reverse]
  | c :: r, acc =>
    if isWordChar c then pyTokenizeAux r (c :: acc)
    else if acc.isEmpty then pyTokenizeAux r [] else String.mk acc.reverse :: pyTokenizeAux r []

/-- InMemoryBM25._tokenize. -/
def pyTokenize (s : String) : List String := pyTokenizeAux (pyLower s).data []

/-- InMemoryBM25 state: document references, tokenized documents, and
whether a BM25 model has been fitted (self.bm25 is not None). -/
structure BM25State where
  documents : List Nat
  tokenized : List (List String)
  fitted : Bool
deriving DecidableEq

/-- Score list access scores[idx]; the sorted indices are always in
range. -/
def scoreAt (scores : List ℚ) (i : Nat) : ℚ := (scores[i]?).getD 0

/-- The result-building loop of InMemoryBM25.search (lines 41-46):
keep indices with positive score, copy the stored document, and write
the score field into the copy.  Returns the fresh references.  An
index beyond the corpus would raise IndexError in Python; get_scores
of the fitted model always matches the corpus size, and such indices
are skipped here. -/
def bm25CollectLoop (docs : List Nat) (scores : List ℚ) : List Nat → Heap → List Nat × Heap
  | [], heap => ([], heap)
  | i :: is, heap =>
    if 0 < scoreAt scores i then
      match docs[i]? with
      | some r =>
        match heap.look r with
        | some d =>
          let (r', heap') := heap.alloc (alistSet d "score" (.num (scoreAt scores i)))
          let (rest, heap2) := bm25CollectLoop docs scores is heap'
          (r' :: rest, heap2)
        | none =>
          bm25CollectLoop docs scores is heap
      | none => bm25CollectLoop docs scores is heap
    else bm25CollectLoop docs scores is heap

/-- InMemoryBM25.search (lines 32-48), with the external BM25Okapi
scoring passed as getScores.  Returns the result references and the
state and heap after the call. -/
def bm25Search (getScores : List String → List ℚ) (st : BM25State) (heap : Heap)
    (query : String) (topk : Nat) : List Nat × BM25State × Heap :=
  if ¬ st.fitted ∨ st.documents.isEmpty then ([], st, heap)
  else
    let tq := pyTokenize query
    let scores := getScores tq
    let idxs := (List.insertionSort
      (fun i j => scoreAt scores j ≤ scoreAt scores i) (List.range scores.length)).take topk
    let (res, heap') := bm25CollectLoop st.documents scores idxs heap
    (res, st, heap')

/-- InMemoryBM25.add_documents (lines 19-30) for explicitly provided
metadata (the ingest worker always passes it): each document dict is
allocated on the heap as the merge of the text key and the metadata
keys; the model is refitted whenever tokenized_docs is non-empty. -/
def bm25AddDocuments (st : BM25State) (heap : Heap) (texts : List String)
    (metas : List PyDict) : BM25State × Heap :=
  let step := fun (acc : BM25State × Heap) (tm : String × PyDict) =>
    let d : PyDict := ("text", .str tm.1) :: tm.2
    let (r, heap') := acc.2.alloc d
    ({ acc.1 with documents := acc.1.documents ++ [r],
                  tokenized := acc.1.tokenized ++ [pyTokenize tm.1] }, heap')
  let res := (texts.zip metas).foldl step (st, heap)
  ({ res.1 with fitted := res.1.fitted || ¬ res.1.tokenized.isEmpty }, res.2)

/-! ## Ingest worker (src/api/app/services/ingest_service.py)

run_ingest_job is modeled from the point where _fetch_content returned
(for non-URL input the inline string passes through unchanged; URL
fetching is external I/O).  The Qdrant collection is a point list;
embeddings and UUID generation are explicit functions.  Every clock
read uses the symbolic now.  The result is none only if a Redis write
raises, which the proofs rule out. -/

structure QPoint where
  pid : String
  vector : List ℚ
  ptext : String
  page : Nat
deriving DecidableEq

/-- The process state the worker touches. -/
structure IngestWorld where
  reg : RedisState
  qdrant : List QPoint
  bm25 : BM25State
  heap : Heap

/-- One update_job call of the worker, threading the world. -/
def wUpdate (w : IngestWorld) (jobId : String) (p : JobPatch) (now : ℚ) :
    Option IngestWorld :=
  match updateJob w.reg jobId p now now with
  | none => none
  | some (_, reg') => some { w with reg := reg' }

/-- qdrant add_documents (qdrant_store.py lines 27-38): one point per
(text, embedding) pair with a fresh uuid id and payload text/page. -/
def qdrantAddDocuments (points : List QPoint) (texts : List String)
    (embeds : List (List ℚ)) (uuidGen : Nat → String) : List QPoint :=
  points ++ (texts.zip embeds).enum.map (fun p =>
    { pid := uuidGen p.1, vector := p.2.2, ptext := p.2.1, page := p.1 + 1 })

/-- The BM25 metadata dict the worker builds for chunk i (ingest
service lines 169-179). -/
def ingestMeta (uuidGen : Nat → String) (base : Nat) (i : Nat) (c : SChunk) : PyDict :=
  [("page", .num ((c.page.getD (i + 1) : Nat) : ℚ)),
   ("doc_id", .str (uuidGen (base + i))),
   ("title", match c.title with | some t => .str t | none => .null),
   ("section", match c.sectionPath with | some t => .str t | none => .null),
   ("chunk_index", .num (c.chunkIndex : ℚ)),
   ("word_count", .num (c.wordCount : ℚ)),
   ("has_title_context", .bool (c.metaHasTitleContext.getD false))]

/-- run_ingest_job (ingest_service.py lines 62-241) after the fetch
stage, for inline (non-URL) content. -/
def runIngestJob (w : IngestWorld) (jobId : String) (fetched : String) (dtype : DocType)
    (embed : List String → List (List ℚ)) (uuidGen : Nat → String) (now : ℚ) :
    Option IngestWorld :=
  match wUpdate w jobId
      { status := some .running, stage := some "fetching", progress := some 10,
        message := some "Fetching and cleaning content..." } now with
  | none => none
  | some w1 =>
    if pyStrip fetched = "" then
      wUpdate w1 jobId { status := some .error, message := some "No content after cleaning" } now
    else
      match wUpdate w1 jobId
          { stage := some "chunking", progress := some 20,
            message := some "Creating semantic chunks..." } now with
      | none => none
      | some w2 =>
        let chunks := chunkText 800 200 true true dtype fetched
        if chunks.isEmpty then
          wUpdate w2 jobId
            { status := some .error, message := some "No chunks created from content" } now
        else
          match wUpdate w2 jobId
              { stage := some "embedding", progress := some 40,
                message := some ("Creating embeddings for " ++ toString chunks.length ++ " chunks...") } now with
          | none => none
          | some w3 =>
            let ctexts := chunks.map (fun c => c.text)
            let embeds := embed ctexts
            match wUpdate w3 jobId
                { stage := some "storing", progress := some 70,
                  message := some "Storing in vector database..." } now with
            | none => none
            | some w4 =>
              let newQdrant := qdrantAddDocuments w4.qdrant ctexts embeds uuidGen
              let created := (ctexts.zip embeds).length
              let w5 := { w4 with qdrant := newQdrant }
              match wUpdate w5 jobId
                  { stage := some "indexing", progress := some 85,
                    message := some "Building BM25 index..." } now with
              | none => none
              | some w6 =>
                let metas := chunks.enum.map (fun p => ingestMeta uuidGen created p.1 p.2)
                let (bm', heap') := bm25AddDocuments w6.bm25 w6.heap ctexts metas
                let w7 := { w6 with bm25 := bm', heap := heap' }
                wUpdate w7 jobId
                  { status := some .success, stage := some "completed", progress := some 100,
                    message := some ("Successfully ingested " ++ toString created ++ " semantic chunks"),
                    chunks_created := some created } now

/-! ## Embedding provider adapter (src/api/app/deps/embeddings.py)

embed_texts reads EMBEDDING_PROVIDER and OPENAI_API_KEY from the
configuration; the OpenAI call is external and its outcome is the
callResult parameter; np.random.rand row is the randRow parameter and
the numpy L2 normalization (rows divided by their norm plus 1e-12) the
normalize parameter.  Both the ImportError handler and the generic
exception handler fall back to the random rows. -/

/-- Python truthiness of the optional api key (None and the empty
string are falsy). -/
def keyTruthy : Option String → Bool
  | none => false
  | some k => k ≠ ""

/-- deps/embeddings.embed_texts (lines 9-32). -/
def embedTexts (provider : String) (apiKey : Option String)
    (callResult : Except String (List (List ℚ))) (randRow : Nat → List ℚ)
    (normalize : List (List ℚ) → List (List ℚ)) (texts : List String) : List (List ℚ) :=
  let mock := (List.range texts.length).map randRow
  let vecs :=
    if provider = "openai" ∧ keyTruthy apiKey then
      match callResult with
      | .ok v => v
      | .error _ => mock
    else mock
  normalize vecs

/-! ## Query cache and query path (src/api/app/services/query_cache.py,
query_service.py)

The cache key is md5 of the sorted json of (question.lower().strip(),
retriever_type, top_k); md5-of-json is injective on the triple for all
practical inputs, so the key is carried as the triple itself.  The
cachetools TTLCache is external: it is modeled as an entry list with
insertion times, expiry when the ttl has elapsed, and eviction of the
oldest entries beyond maxsize (the LRU access-order refresh is not
modeled; the service never reads entries, so set/get round trips are
the only exercised behavior). -/

/-- A retrieval result dict {text, page, score}. -/
structure SRes where
  text : String
  page : Option Nat
  score : ℚ
deriving DecidableEq

/-- The response dict built by query_documents (lines 89-98); metadata
is flattened into fields. -/
structure QResponse where
  answer : String
  sources : List SRes
  retriever_used : String
  meta_total_sources : Nat
  meta_query_method : String
  meta_avg_score : ℚ
deriving DecidableEq

/-- QueryCache._create_key (lines 20-24). -/
def cacheKey (question rtype : String) (topk : Nat) : String × String × Nat :=
  (pyLower (pyStrip question), rtype, topk)

/-- QueryCache state. -/
structure QueryCache where
  entries : List ((String × String × Nat) × QResponse × ℚ)
  maxsize : Nat
  ttl : ℚ
  hit_count : Nat
  miss_count : Nat
deriving DecidableEq

/-- QueryCache.get (lines 26-37) at clock now. -/
def cacheGet (c : QueryCache) (question rtype : String) (topk : Nat) (now : ℚ) :
    Option QResponse × QueryCache :=
  let key := cacheKey question rtype topk
  match c.entries.find? (fun e => e.1 = key) with
  | some e =>
    if now < e.2.2 + c.ttl then
      (some e.2.1, { c with hit_count := c.hit_count + 1 })
    else (none, { c with miss_count := c.miss_count + 1 })
  | none => (none, { c with miss_count := c.miss_count + 1 })

/-- QueryCache.set (lines 39-43) at clock now: expired entries are
dropped, the key is overwritten in place or appended, oldest entries
beyond maxsize are evicted. -/
def cacheSet (c : QueryCache) (question rtype : String) (topk : Nat)
    (v : QResponse) (now : ℚ) : QueryCache :=
  let key := cacheKey question rtype topk
  let live := c.entries.filter (fun e => decide (now < e.2.2 + c.ttl))
  let replaced := alistSet live key (v, now)
  let final := if c.maxsize < replaced.length then replaced.drop (replaced.length - c.maxsize) else replaced
  { c with entries := final }

/-- query_service.query_documents (lines 54-130).  The retriever built
by the factory is abstracted by its name and search function, and the
LLM answer by genAnswer (the source calls the async _generate_answer
without awaiting it, so the real dict holds a coroutine object; the
eventual answer value is modeled).  The global query cache is threaded
explicitly to expose its frame behavior: the function never reads or
writes it. -/
def queryDocuments (retrieverName : String) (retrieve : String → Nat → List SRes)
    (genAnswer : String → List SRes → String → String) (cache : QueryCache)
    (question rtype : String) (topk : Nat) : QResponse × QueryCache :=
  let results := retrieve question topk
  let answer := genAnswer question results retrieverName
  ({ answer := answer, sources := results, retriever_used := retrieverName,
     meta_total_sources := results.length, meta_query_method := rtype,
     meta_avg_score :=
       if results.length = 0 then 0
       else (results.map (fun r => r.score)).sum / (results.length : ℚ) },
   cache)

/-! ## Robust SSE manager (src/api/app/utils/robust_sse.py)

Event ids and clocks are generated externally and passed in.  Only the
per-job event history and the connection record matter for the replay
protocol; the SSE wire formatting of create_sse_event is a pure
function of the event and does not affect which events are emitted. -/

structure SSEEvent where
  id : String
  event_type : String
  data : PyDict
  timestamp : ℚ
  connection_id : String

/-- SSEConnection (robust_sse.py lines 22-32). -/
structure SSEConn where
  connection_id : String
  client_id : String
  job_id : String
  created_at : ℚ
  last_ping : ℚ
  last_event_id : Option String
  is_active : Bool
  event_buffer : List SSEEvent

/-- The manager state: per-job event history deques (maxlen
event_buffer_size). -/
structure SSEState where
  history : List (String × List SSEEvent)
  bufSize : Nat

/-- deque append with maxlen. -/
def dequeAppend (cap : Nat) (l : List SSEEvent) (e : SSEEvent) : List SSEEvent :=
  let l' := l ++ [e]
  l'.drop (l'.length - cap)

/-- RobustSSEManager.create_sse_event (lines 102-141): record the
event in the connection buffer, OVERWRITE connection.last_event_id
with the new event id, and append to the job history when present. -/
def createSseEvent (st : SSEState) (conn : SSEConn) (etype : String) (d : PyDict)
    (eid : String) (now : ℚ) : SSEEvent × SSEConn × SSEState :=
  let ev : SSEEvent := { id := eid, event_type := etype, data := d, timestamp := now,
                         connection_id := conn.connection_id }
  let conn' := { conn with
    event_buffer := dequeAppend 100 conn.event_buffer ev,
    last_event_id := some eid }
  let st' :=
    match alistGet st.history conn.job_id with
    | some l => { st with history := alistSet st.history conn.job_id (dequeAppend st.bufSize l ev) }
    | none => st
  (ev, conn', st')

/-- Collect the events after the first occurrence of the given id. -/
def eventsAfterId (lid : String) : List SSEEvent → Bool → List SSEEvent
  | [], _ => []
  | e :: rest, found =>
    if found then e :: eventsAfterId lid rest true
    else if e.id = lid then eventsAfterId lid rest true
    else eventsAfterId lid rest false

/-- RobustSSEManager.get_missed_events (lines 143-165).  A falsy
last_event_id (None or empty) or an unknown job yields no events. -/
def getMissedEvents (st : SSEState) (conn : SSEConn) : List SSEEvent :=
  match conn.last_event_id, alistGet st.history conn.job_id with
  | some lid, some l => if lid = "" then [] else eventsAfterId lid l false
  | _, _ => []

/-- The replay payload nested for one missed event (lines 192-202). -/
def replayData (e : SSEEvent) : PyDict :=
  [("type", .str "event_replay"),
   ("original_event", .str e.event_type),
   ("original_data", .obj e.data),
   ("original_timestamp", .num e.timestamp)]

/-- Emit the replay block: one replay event per missed event, each
itself recorded through create_sse_event with id replay_<original>. -/
def emitReplays (st : SSEState) (conn : SSEConn) (now : ℚ) :
    List SSEEvent → List SSEEvent × SSEConn × SSEState
  | [] => ([], conn, st)
  | e :: rest =>
    let (ev, conn1, st1) := createSseEvent st conn "replay" (replayData e) ("replay_" ++ e.id) now
    let (evs, conn2, st2) := emitReplays st1 conn1 now rest
    (ev :: evs, conn2, st2)

/-- The prefix of RobustSSEManager.stream_with_reconnection up to the
replay block (lines 175-202): the connection_start event is created
first (clobbering connection.last_event_id), then get_missed_events is
consulted and the replay block emitted; live events from the source
follow and are independent of the replay computation. -/
def streamPrelude (st : SSEState) (conn : SSEConn) (connEvtId : String)
    (hbInterval now : ℚ) : List SSEEvent × SSEConn × SSEState :=
  let d : PyDict :=
    [("type", .str "connection_start"),
     ("connection_id", .str conn.connection_id),
     ("client_id", .str conn.client_id),
     ("heartbeat_interval", .num hbInterval),
     ("supports_reconnection", .bool true)]
  let (e0, conn1, st1) := createSseEvent st conn "connection" d connEvtId now
  let missed := getMissedEvents st1 conn1
  let (revs, conn2, st2) := emitReplays st1 conn1 now missed
  (e0 :: revs, conn2, st2)

/-! ## Hybrid retriever (src/api/app/retrieval/hybrid_retriever.py)

The dense and BM25 searches it runs are themselves network- and
index-dependent; they enter as search functions.  Scores are exact
rationals. -/

/-- A combined entry of the hybrid score dict. -/
structure HRes where
  text : String
  page : Option Nat
  score : ℚ
  dense_score : ℚ
  bm25_score : ℚ
deriving DecidableEq

/-- Python max(list, default=0). -/
def pyMax (l : List ℚ) : ℚ :=
  match l with
  | [] => 0
  | x :: xs => xs.foldl max x

/-- The dict entry the dense loop writes for one dense result
(lines 35-41). -/
def hDMk (wd maxd : ℚ) (r : SRes) : HRes :=
  { text := r.text, page := r.page, score := wd * (r.score / maxd),
    dense_score := r.score, bm25_score := 0 }

/-- The dict entry the BM25 loop writes for a text absent from the
dense results (lines 56-62). -/
def hBMk (wb maxb : ℚ) (r : SRes) : HRes :=
  { text := r.text, page := r.page, score := wb * (r.score / maxb),
    dense_score := 0, bm25_score := r.score }

/-- The in-place combination the BM25 loop performs on an existing
dense entry (lines 50-53). -/
def hBUpd (wb maxb : ℚ) (e : HRes) (r : SRes) : HRes :=
  { e with score := e.score + wb * (r.score / maxb), bm25_score := r.score }

/-- The dense pass (lines 29-41): normalize by the maximum when it is
positive and seed the dict. -/
def hybridDensePass (wd : ℚ) (dr : List SRes) : List (String × HRes) :=
  let maxd := pyMax (dr.map (fun r => r.score))
  if 0 < maxd then
    dr.foldl (fun acc r => alistSet acc r.text (hDMk wd maxd r)) []
  else []

/-- One iteration of the BM25 combination loop (lines 46-62): combine
into the existing entry of the text or add a new one. -/
def hStep (wb maxb : ℚ) (acc : List (String × HRes)) (r : SRes) : List (String × HRes) :=
  match alistGet acc r.text with
  | some e => alistSet acc r.text (hBUpd wb maxb e r)
  | none => alistSet acc r.text (hBMk wb maxb r)

/-- The BM25 pass (lines 43-62). -/
def hybridBm25Pass (wb : ℚ) (br : List SRes) (acc0 : List (String × HRes)) :
    List (String × HRes) :=
  let maxb := pyMax (br.map (fun r => r.score))
  if 0 < maxb then br.foldl (hStep wb maxb) acc0
  else acc0

/-- The effect of the whole BM25 pass on one existing dict entry: the
entry of the single BM25 result with the same text (if any) is folded
in. -/
def hUpdBy (wb maxb : ℚ) (br : List SRes) (p : String × HRes) : String × HRes :=
  (p.1, match br.find? (fun r => r.text = p.1) with
        | some r => hBUpd wb maxb p.2 r
        | none => p.2)

/-- HybridRetriever.search (lines 20-71): both retrievers run with
limit 2·top_k, the passes build the per-text dict, and the values are
returned sorted by combined score descending, truncated to top_k. -/
def hybridSearch (denseSearch bm25Search : String → Nat → List SRes) (wd wb : ℚ)
    (query : String) (topk : Nat) : List HRes :=
  let dr := denseSearch query (topk * 2)
  let br := bm25Search query (topk * 2)
  let combined := hybridBm25Pass wb br (hybridDensePass wd dr)
  let vals := combined.map (fun p => p.2)
  (List.insertionSort (fun a b => b.score ≤ a.score) vals).take topk

/-- The claim's normalized dense contribution of a text: the first
result with that text, divided by the set maximum, weighted; zero when
the set is empty, its maximum is zero, or the text is absent.  This
definition follows the claim's wording, for comparison with the
source-derived hybridSearch. -/
def specDenseContrib (wd : ℚ) (dr : List SRes) (t : String) : ℚ :=
  let m := pyMax (dr.map (fun r => r.score))
  if m = 0 then 0
  else
    match dr.find? (fun r => r.text = t) with
    | some r => wd * (r.score / m)
    | none => 0

/-- The claim's normalized BM25 contribution of a text (wording of the
claim, as specDenseContrib). -/
def specBm25Contrib (wb : ℚ) (br : List SRes) (t : String) : ℚ :=
  let m := pyMax (br.map (fun r => r.score))
  if m = 0 then 0
  else
    match br.find? (fun r => r.text = t) with
    | some r => wb * (r.score / m)
    | none => 0

/-! ## Statement helpers and concrete scenarios -/

/-- Whether the stored job behind an active-set member is queued or
running (status decoding does not depend on the post-init clock). -/
def isActiveJobId (st : RedisState) (i : String) : Bool :=
  match getJob st i 0 with
  | some j => decide (j.status = .queued ∨ j.status = .running)
  | none => false

/-- The number of active-set members whose job is queued or running:
the count the admission-control claim speaks about. -/
def activeQRCount (st : RedisState) : Nat :=
  (st.active.filter (isActiveJobId st)).length

/-- The paragraph-mode overlap relation between consecutive chunks, as
the code produces it: the next chunk starts with the last chunk_overlap
CHARACTERS of the flushed text. -/
def paraOverlapRel (ov : Nat) (a b : SChunk) : Prop :=
  StrPre (takeLastChars ov a.text) b.text

/-- The sentence-mode overlap relation between consecutive chunks:
whenever the flushed chunk has more than one sentence, the next chunk
starts with its last two sentences. -/
def sentOverlapRel (a b : SChunk) : Prop :=
  1 < a.parts.length → StrPre (joinSep " " (listTakeLast 2 a.parts)) b.text

/-- A freshly initialized job record at clock 1 with the given status
forced, used to populate concrete registry states. -/
def mkJobAt (id : String) (s : JobStatus) (msg : Option String) : JobState :=
  { job_id := id, status := s, stage := "initialized", progress := 0, message := msg,
    chunks_created := 0, created_at := 1, updated_at := 1, retry_count := 0,
    max_retries := 3, timeout_seconds := 300, metadata := [] }

/-- Concrete registry for the admission-control scenario: the active
set holds two completed jobs first and ten queued jobs after them. -/
def c4State : RedisState :=
  { jobs := [("job:t1", encodeJobCreate (mkJobAt "t1" .success none)),
             ("job:t2", encodeJobCreate (mkJobAt "t2" .success none))] ++
      ((List.range 10).map (fun i =>
        ("job:q" ++ toString i, encodeJobCreate (mkJobAt ("q" ++ toString i) .queued none)))),
    active := ["t1", "t2"] ++ (List.range 10).map (fun i => "q" ++ toString i),
    published := [], history := [] }

/-- Concrete registry with one terminally successful job. -/
def c3State : RedisState :=
  { jobs := [("job:j1", encodeJobCreate (mkJobAt "j1" .success (some "done")))],
    active := ["j1"], published := [], history := [] }

/-- Concrete worker world with one queued job and empty stores. -/
def c7World : IngestWorld :=
  { reg := { jobs := [("job:j1", encodeJobCreate (mkJobAt "j1" .queued none))],
             active := ["j1"], published := [], history := [] },
    qdrant := [], bm25 := { documents := [], tokenized := [], fitted := false },
    heap := ⟨[]⟩ }

/-- Two events sitting in the job history of the SSE reconnection
scenario. -/
def c5e1 : SSEEvent :=
  { id := "evt_a", event_type := "job_updated",
    data := [("type", .str "job_updated"), ("progress", .num 10)],
    timestamp := 10, connection_id := "c_old" }

/-- Second history event, strictly after c5e1. -/
def c5e2 : SSEEvent :=
  { id := "evt_b", event_type := "job_updated",
    data := [("type", .str "job_updated"), ("progress", .num 20)],
    timestamp := 11, connection_id := "c_old" }

/-- SSE manager state: job1 has [c5e1, c5e2] in its history. -/
def c5State : SSEState := { history := [("job1", [c5e1, c5e2])], bufSize := 100 }

/-- The reconnecting connection, presenting Last-Event-ID evt_a. -/
def c5Conn : SSEConn :=
  { connection_id := "sse_new", client_id := "client_1", job_id := "job1",
    created_at := 12, last_ping := 12, last_event_id := some "evt_a",
    is_active := true, event_buffer := [] }

/-- An empty query cache with capacity 10. -/
def c1Cache0 : QueryCache :=
  { entries := [], maxsize := 10, ttl := 300, hit_count := 0, miss_count := 0 }

/-- A concrete cached response. -/
def c1Resp : QResponse :=
  { answer := "a", sources := [], retriever_used := "dense", meta_total_sources := 0,
    meta_query_method := "dense", meta_avg_score := 0 }

/-- Concrete BM25 index for the frame-property scenario: two indexed
documents at heap references 0 and 1, model fitted. -/
def c10St : BM25State :=
  { documents := [0, 1], tokenized := [["a"], ["b"]], fitted := true }

/-- The heap holding the two indexed document dicts. -/
def c10Heap : Heap := ⟨[[("text", .str "a")], [("text", .str "b")]]⟩

/-! ## Helper lemmas -/

theorem alistGet_set_self [DecidableEq κ] (l : List (κ × α)) (k : κ) (v : α) :
    alistGet (alistSet l k v) k = some v := by
  induction l with
  | nil => simp [alistGet, alistSet]
  | cons p rest ih =>
    by_cases h : p.1 = k
    · simp [alistGet, alistSet, h]
    · simp only [alistSet, if_neg h]
      simpa [alistGet, List.find?, h] using ih

theorem find?_alistSet_self [DecidableEq κ] (l : List (κ × α)) (k : κ) (v : α) :
    (alistSet l k v).find? (fun p => p.1 = k) = some (k, v) := by
  induction l with
  | nil => simp [alistSet]
  | cons p rest ih =>
    by_cases h : p.1 = k
    · simp [alistSet, h]
    · simp [alistSet, if_neg h, List.find?, h, ih]

theorem alistSet_length_le [DecidableEq κ] (l : List (κ × α)) (k : κ) (v : α) :
    (alistSet l k v).length ≤ l.length + 1 := by
  induction l with
  | nil => simp [alistSet]
  | cons p rest ih =>
    by_cases h : p.1 = k
    · simp [alistSet, h]
    · simp only [alistSet, if_neg h, List.length_cons]
      omega

theorem alistGet_cons [DecidableEq κ] (p : κ × α) (l : List (κ × α)) (k : κ) :
    alistGet (p :: l) k = if p.1 = k then some p.2 else alistGet l k := by
  by_cases h : p.1 = k
  · simp [alistGet, List.find?, h]
  · simp [alistGet, List.find?, h]

theorem alistGet_eq_none [DecidableEq κ] (l : List (κ × α)) (k : κ) :
    alistGet l k = none ↔ k ∉ l.map (fun p => p.1) := by
  induction l with
  | nil => simp [alistGet]
  | cons p rest ih =>
    rw [alistGet_cons]
    by_cases h : p.1 = k
    · simp [h]
    · rw [if_neg h, ih]
      simp only [List.map_cons, List.mem_cons, not_or]
      constructor
      · intro hnot
        exact ⟨fun hc => h hc.symm, hnot⟩
      · intro hand
        exact hand.2

theorem alistSet_of_none [DecidableEq κ] (l : List (κ × α)) (k : κ) (v : α)
    (h : alistGet l k = none) : alistSet l k v = l ++ [(k, v)] := by
  induction l with
  | nil => simp [alistSet]
  | cons p rest ih =>
    rw [alistGet_cons] at h
    by_cases hp : p.1 = k
    · rw [if_pos hp] at h
      exact absurd h (by simp)
    · rw [if_neg hp] at h
      simp only [alistSet, if_neg hp, List.cons_append, List.cons.injEq, true_and]
      exact ih h

theorem alistGet_append_of_none [DecidableEq κ] (l1 l2 : List (κ × α)) (k : κ)
    (h : alistGet l1 k = none) : alistGet (l1 ++ l2) k = alistGet l2 k := by
  induction l1 with
  | nil => simp
  | cons p rest ih =>
    rw [alistGet_cons] at h
    by_cases hp : p.1 = k
    · rw [if_pos hp] at h
      exact absurd h (by simp)
    · rw [if_neg hp] at h
      rw [List.cons_append, alistGet_cons, if_neg hp]
      exact ih h

theorem alistGet_append_of_some [DecidableEq κ] (l1 l2 : List (κ × α)) (k : κ) (v : α)
    (h : alistGet l1 k = some v) : alistGet (l1 ++ l2) k = some v := by
  induction l1 with
  | nil => simp [alistGet] at h
  | cons p rest ih =>
    rw [alistGet_cons] at h
    by_cases hp : p.1 = k
    · rw [if_pos hp] at h
      rw [List.cons_append, alistGet_cons, if_pos hp]
      exact h
    · rw [if_neg hp] at h
      rw [List.cons_append, alistGet_cons, if_neg hp]
      exact ih h

theorem keys_alistSet_of_some [DecidableEq κ] (l : List (κ × α)) (k : κ) (v : α)
    (h : (alistGet l k).isSome) :
    (alistSet l k v).map (fun p => p.1) = l.map (fun p => p.1) := by
  induction l with
  | nil => simp [alistGet] at h
  | cons p rest ih =>
    rw [alistGet_cons] at h
    by_cases hp : p.1 = k
    · simp [alistSet, hp]
    · rw [if_neg hp] at h
      simp only [alistSet, if_neg hp, List.map_cons, List.cons.injEq, true_and]
      exact ih h

theorem find?_text_of_nodup (l : List SRes) (r : SRes)
    (hn : (l.map (fun x => x.text)).Nodup) (hm : r ∈ l) :
    l.find? (fun x => x.text = r.text) = some r := by
  induction l with
  | nil => simp at hm
  | cons p rest ih =>
    rcases List.mem_cons.mp hm with heq | hmem
    · subst heq
      simp [List.find?]
    · have hne : p.text ≠ r.text := by
        intro hcontra
        have : r.text ∈ rest.map (fun x => x.text) := List.mem_map_of_mem _ hmem
        rw [← hcontra] at this
        exact (List.nodup_cons.mp hn).1 this
      simp only [List.find?]
      rw [show (decide (p.text = r.text)) = false from decide_eq_false_iff_not.mpr hne]
      exact ih (List.nodup_cons.mp hn).2 hmem

theorem hUpdBy_cons_ne (wb maxb : ℚ) (r : SRes) (rs : List SRes) (p : String × HRes)
    (h : r.text ≠ p.1) : hUpdBy wb maxb (r :: rs) p = hUpdBy wb maxb rs p := by
  simp only [hUpdBy, List.find?]
  rw [show (decide (r.text = p.1)) = false from decide_eq_false_iff_not.mpr h]

theorem hUpdBy_of_notin (wb maxb : ℚ) (rs : List SRes) (p : String × HRes)
    (h : ∀ x ∈ rs, x.text ≠ p.1) : hUpdBy wb maxb rs p = p := by
  have : rs.find? (fun r => r.text = p.1) = none := by
    apply List.find?_eq_none.mpr
    intro x hx
    simpa using h x hx
  simp [hUpdBy, this]

theorem hUpdBy_found (wb maxb : ℚ) (br : List SRes) (p : String × HRes) (r : SRes)
    (h : br.find? (fun x => x.text = p.1) = some r) :
    hUpdBy wb maxb br p = (p.1, hBUpd wb maxb p.2 r) := by
  simp [hUpdBy, h]

theorem hUpdBy_notfound (wb maxb : ℚ) (br : List SRes) (p : String × HRes)
    (h : br.find? (fun x => x.text = p.1) = none) :
    hUpdBy wb maxb br p = p := by
  simp [hUpdBy, h]

theorem pyMax_nonneg (l : List ℚ) (h : ∀ x ∈ l, 0 ≤ x) : 0 ≤ pyMax l := by
  have hfold : ∀ (m : List ℚ) (a : ℚ), a ≤ m.foldl max a := by
    intro m
    induction m with
    | nil => intro a; simp
    | cons x xs ih =>
      intro a
      calc a ≤ max a x := le_max_left a x
        _ ≤ xs.foldl max (max a x) := ih (max a x)
  cases l with
  | nil => simp [pyMax]
  | cons x xs => exact le_trans (h x (by simp)) (hfold xs x)

/-- Seeding a dict by folding writes of pairwise fresh keys appends
them in order. -/
theorem foldl_alistSet_fresh (F : SRes → HRes) :
    ∀ (dr : List SRes) (acc : List (String × HRes)),
      (∀ r ∈ dr, alistGet acc r.text = (none : Option HRes)) →
      ((dr.map (fun r => r.text)).Nodup) →
      dr.foldl (fun a r => alistSet a r.text (F r)) acc =
        acc ++ dr.map (fun r => (r.text, F r))
  | [], acc, _, _ => by simp
  | r :: rest, acc, hfresh, hnodup => by
    simp only [List.foldl_cons]
    rw [alistSet_of_none acc r.text (F r) (hfresh r (by simp))]
    rw [foldl_alistSet_fresh F rest (acc ++ [(r.text, F r)]) ?_ (List.nodup_cons.mp hnodup).2]
    · simp
    · intro x hx
      rw [alistGet_append_of_none _ _ _ (hfresh x (List.mem_cons_of_mem _ hx))]
      have hne : x.text ≠ r.text := by
        intro hcontra
        have : x.text ∈ rest.map (fun y => y.text) := List.mem_map_of_mem _ hx
        rw [hcontra] at this
        exact (List.nodup_cons.mp hnodup).1 this
      rw [alistGet_cons, if_neg (fun hc => hne hc.symm)]
      rfl

theorem alistGet_alistSet_ne [DecidableEq κ] (l : List (κ × α)) (k k' : κ) (v : α)
    (h : k' ≠ k) : alistGet (alistSet l k v) k' = alistGet l k' := by
  induction l with
  | nil =>
    show alistGet [(k, v)] k' = alistGet [] k'
    rw [alistGet_cons, if_neg (fun hc : k = k' => h hc.symm)]
  | cons p rest ih =>
    by_cases hp : p.1 = k
    · simp only [alistSet, if_pos hp]
      rw [alistGet_cons, alistGet_cons, if_neg (fun hc : k = k' => h hc.symm), if_neg ?_]
      rw [hp]
      exact fun hc => h hc.symm
    · simp only [alistSet, if_neg hp]
      rw [alistGet_cons, alistGet_cons]
      by_cases hp' : p.1 = k'
      · rw [if_pos hp', if_pos hp']
      · rw [if_neg hp', if_neg hp']
        exact ih

theorem hUpdBy_keeps_key (wb maxb : ℚ) (br : List SRes) (p : String × HRes) :
    (hUpdBy wb maxb br p).1 = p.1 := rfl

/-- Updating one existing key then folding the remaining distinct keys
equals folding everything. -/
theorem map_hUpdBy_alistSet (wb maxb : ℚ) (rs : List SRes) (r : SRes) :
    ∀ (acc : List (String × HRes)) (e : HRes),
      ((acc.map (fun p => p.1)).Nodup) →
      alistGet acc r.text = some e →
      (∀ x ∈ rs, x.text ≠ r.text) →
      (alistSet acc r.text (hBUpd wb maxb e r)).map (hUpdBy wb maxb rs) =
        acc.map (hUpdBy wb maxb (r :: rs))
  | [], e, _, hget, _ => by simp [alistGet] at hget
  | p :: rest, e, hnodup, hget, hnotin => by
    rw [alistGet_cons] at hget
    by_cases hp : p.1 = r.text
    · rw [if_pos hp] at hget
      have he : e = p.2 := (Option.some.inj hget).symm
      subst he
      simp only [alistSet, if_pos hp, List.map_cons]
      congr 1
      · rw [hUpdBy_of_notin wb maxb rs _ (fun x hx => hnotin x hx)]
        show (r.text, hBUpd wb maxb p.2 r) = hUpdBy wb maxb (r :: rs) p
        simp only [hUpdBy, List.find?]
        rw [show (decide (r.text = p.1)) = true from decide_eq_true hp.symm]
        rw [hp]
      · apply List.map_congr_left
        intro x hx
        have hxne : r.text ≠ x.1 := by
          intro hc
          have hin : x.1 ∈ rest.map (fun q => q.1) := List.mem_map_of_mem _ hx
          rw [← hc, ← hp] at hin
          exact (List.nodup_cons.mp hnodup).1 hin
        rw [hUpdBy_cons_ne wb maxb r rs x hxne]
    · rw [if_neg hp] at hget
      simp only [alistSet, if_neg hp, List.map_cons]
      congr 1
      · rw [hUpdBy_cons_ne wb maxb r rs p (fun hc => hp hc.symm)]
      · exact map_hUpdBy_alistSet wb maxb rs r rest e (List.nodup_cons.mp hnodup).2 hget hnotin

theorem hStep_of_none (wb maxb : ℚ) (acc : List (String × HRes)) (r : SRes)
    (h : alistGet acc r.text = none) :
    hStep wb maxb acc r = alistSet acc r.text (hBMk wb maxb r) := by
  simp [hStep, h]

theorem hStep_of_some (wb maxb : ℚ) (acc : List (String × HRes)) (r : SRes) (e : HRes)
    (h : alistGet acc r.text = some e) :
    hStep wb maxb acc r = alistSet acc r.text (hBUpd wb maxb e r) := by
  simp [hStep, h]

/-- Structure of the BM25 combination fold: existing entries are
updated in place, texts absent from the dict are appended in order. -/
theorem foldl_bm25_structure (wb maxb : ℚ) :
    ∀ (br : List SRes) (acc : List (String × HRes)),
      ((br.map (fun r => r.text)).Nodup) →
      ((acc.map (fun p => p.1)).Nodup) →
      br.foldl (hStep wb maxb) acc =
      acc.map (hUpdBy wb maxb br) ++
        (br.filter (fun r => (alistGet acc r.text).isNone)).map
          (fun r => (r.text, hBMk wb maxb r))
  | [], acc, _, _ => by
    simp only [List.foldl_nil, List.filter_nil, List.map_nil, List.append_nil]
    rw [show acc.map (hUpdBy wb maxb []) = acc.map id from
      List.map_congr_left (fun p _ => hUpdBy_of_notin wb maxb [] p (by simp))]
    simp
  | r :: rs, acc, hbn, han => by
    have hrnotin : ∀ x ∈ rs, x.text ≠ r.text := by
      intro x hx hc
      have : r.text ∈ rs.map (fun y => y.text) := by
        rw [← hc]
        exact List.mem_map_of_mem _ hx
      exact (List.nodup_cons.mp hbn).1 this
    rw [List.foldl_cons]
    rcases hg : alistGet acc r.text with _ | e
    · have hstep : hStep wb maxb acc r = acc ++ [(r.text, hBMk wb maxb r)] := by
        rw [hStep_of_none wb maxb acc r hg]
        exact alistSet_of_none acc r.text _ hg
      have hkeys : ((acc ++ [(r.text, hBMk wb maxb r)]).map (fun p => p.1)).Nodup := by
        rw [List.map_append, List.nodup_append]
        refine ⟨han, by simp, ?_⟩
        intro a ha hb
        simp only [List.map_cons, List.map_nil, List.mem_singleton] at hb
        subst hb
        exact (alistGet_eq_none acc r.text).mp hg ha
      rw [hstep, foldl_bm25_structure wb maxb rs _ (List.nodup_cons.mp hbn).2 hkeys]
      rw [List.map_append]
      have hnew : ([(r.text, hBMk wb maxb r)].map (hUpdBy wb maxb rs)) =
          [(r.text, hBMk wb maxb r)] := by
        simp only [List.map_cons, List.map_nil]
        rw [hUpdBy_of_notin wb maxb rs _ (fun x hx => hrnotin x hx)]
      rw [hnew]
      have hmap : acc.map (hUpdBy wb maxb rs) = acc.map (hUpdBy wb maxb (r :: rs)) := by
        apply List.map_congr_left
        intro p hp
        have : r.text ≠ p.1 := by
          intro hc
          exact (alistGet_eq_none acc r.text).mp hg (hc ▸ List.mem_map_of_mem _ hp)
        rw [hUpdBy_cons_ne wb maxb r rs p this]
      have hfil : rs.filter (fun x => (alistGet (acc ++ [(r.text, hBMk wb maxb r)]) x.text).isNone) =
          rs.filter (fun x => (alistGet acc x.text).isNone) := by
        apply List.filter_congr
        intro x hx
        rcases hax : alistGet acc x.text with _ | v
        · rw [alistGet_append_of_none _ _ _ hax]
          rw [alistGet_cons, if_neg (fun hc => hrnotin x hx hc.symm)]
          rfl
        · simp [alistGet_append_of_some _ _ _ _ hax, hax]
      rw [hmap, hfil]
      have htgt : (r :: rs).filter (fun x => (alistGet acc x.text).isNone) =
          r :: rs.filter (fun x => (alistGet acc x.text).isNone) := by
        rw [List.filter_cons]
        rw [show ((alistGet acc r.text).isNone = true) from by rw [hg]; rfl]
        simp
      rw [htgt]
      simp [List.append_assoc]
    · have hsome : (alistGet acc r.text).isSome := by rw [hg]; rfl
      have hkeys : ((alistSet acc r.text (hBUpd wb maxb e r)).map (fun p => p.1)).Nodup := by
        rw [keys_alistSet_of_some acc r.text _ hsome]
        exact han
      rw [hStep_of_some wb maxb acc r e hg]
      rw [foldl_bm25_structure wb maxb rs _ (List.nodup_cons.mp hbn).2 hkeys]
      rw [map_hUpdBy_alistSet wb maxb rs r acc e han hg hrnotin]
      have hfil : rs.filter
          (fun x => (alistGet (alistSet acc r.text (hBUpd wb maxb e r)) x.text).isNone) =
          rs.filter (fun x => (alistGet acc x.text).isNone) := by
        apply List.filter_congr
        intro x hx
        rw [alistGet_alistSet_ne acc r.text x.text _ (fun hc => hrnotin x hx hc)]
      rw [hfil]
      have htgt : (r :: rs).filter (fun x => (alistGet acc x.text).isNone) =
          rs.filter (fun x => (alistGet acc x.text).isNone) := by
        rw [List.filter_cons]
        rw [show ((alistGet acc r.text).isNone = false) from by rw [hg]; rfl]
        simp
      rw [htgt]

theorem statusOfString_statusValue (s : JobStatus) :
    statusOfString (statusValue s) = some s := by
  cases s <;> simp [statusOfString, statusValue]

theorem decodeJob_encodeJobCreate (j : JobState) (t : ℚ)
    (hca : j.created_at ≠ 0) (hua : j.updated_at ≠ 0) :
    decodeJob (encodeJobCreate j) t = some j := by
  simp [decodeJob, encodeJobCreate, statusOfString_statusValue, hca, hua]

theorem decodeJob_encodeJobUpdate (j : JobState)
    (hm : j.message.isSome) (hca : j.created_at ≠ 0) (hua : j.updated_at ≠ 0) :
    ∃ h, encodeJobUpdate j = some h ∧ ∀ t, decodeJob h t = some j := by
  rcases hmm : j.message with _ | m
  · rw [hmm] at hm; simp at hm
  · refine ⟨{
      job_id := some j.job_id,
      status := some (statusValue j.status),
      stage := some j.stage,
      progress := some j.progress,
      message := some m,
      chunks_created := some j.chunks_created,
      created_at := some j.created_at,
      updated_at := some j.updated_at,
      retry_count := some j.retry_count,
      max_retries := some j.max_retries,
      timeout_seconds := some j.timeout_seconds,
      metadata := some j.metadata }, ?_, ?_⟩
    · simp [encodeJobUpdate, hmm]
    · intro t
      simp [decodeJob, statusOfString_statusValue, hca, hua, ← hmm]

/-- Behavior of a successful update_job: the patch is applied
field-wise, whatever the current status is. -/
theorem updateJob_spec (st : RedisState) (id : String) (p : JobPatch) (nowG nowS : ℚ)
    (cur : JobState) (h : getJob st id nowG = some cur)
    (hmsg : (patchMessage p cur).isSome) (hca : cur.created_at ≠ 0) (hns : nowS ≠ 0) :
    ∃ st', updateJob st id p nowG nowS = some (true, st') ∧
      ∀ t, getJob st' id t = some (applyPatch cur p nowS) := by
  have hj : (applyPatch cur p nowS).message.isSome := hmsg
  have hcaj : (applyPatch cur p nowS).created_at ≠ 0 := hca
  have huaj : (applyPatch cur p nowS).updated_at ≠ 0 := hns
  obtain ⟨hsh, henc, hdec⟩ := decodeJob_encodeJobUpdate (applyPatch cur p nowS) hj hcaj huaj
  refine ⟨publishEvent { st with jobs := alistSet st.jobs (jobKey id) hsh } id
      [("type", .str "job_updated"), ("job_id", .str id),
       ("status", .str (statusValue (applyPatch cur p nowS).status)),
       ("stage", .str (applyPatch cur p nowS).stage),
       ("progress", .num (applyPatch cur p nowS).progress),
       ("message", match (applyPatch cur p nowS).message with | some m => .str m | none => .null),
       ("chunks_created", .num ((applyPatch cur p nowS).chunks_created : ℚ)),
       ("timestamp", .num (applyPatch cur p nowS).updated_at)], ?_, ?_⟩
  · simp only [updateJob, h, henc]
  · intro t
    simp only [getJob, publishEvent, jobKey]
    rw [show (alistGet (alistSet st.jobs ("job:" ++ id) hsh) ("job:" ++ id)) = some hsh from
      alistGet_set_self _ _ _]
    exact hdec t

theorem joinSep_append_exists (sep : String) :
    ∀ (l m : List String), l ≠ [] → ∃ t, joinSep sep l ++ t = joinSep sep (l ++ m)
  | [], _, h => absurd rfl h
  | [x], [], _ => ⟨"", by simp [String.append_empty]⟩
  | [x], y :: ys, _ =>
    ⟨sep ++ joinSep sep (y :: ys), by
      simp only [List.cons_append, List.nil_append, joinSep]
      rw [String.append_assoc]⟩
  | x :: x' :: l', m, _ => by
    obtain ⟨t, ht⟩ := joinSep_append_exists sep (x' :: l') m (by simp)
    refine ⟨t, ?_⟩
    show (x ++ sep ++ joinSep sep (x' :: l')) ++ t = joinSep sep ((x :: x' :: l') ++ m)
    rw [String.append_assoc (x ++ sep) (joinSep sep (x' :: l')) t, ht]
    rfl

theorem listTakeLast_two_ne_nil (l : List α) (h : 1 < l.length) : listTakeLast 2 l ≠ [] := by
  have : (listTakeLast 2 l).length = l.length - (l.length - 2) := by
    simp [listTakeLast, List.length_drop]
  intro hnil
  rw [hnil] at this
  simp at this
  omega

/-- Every chunk list produced from a non-empty current chunk starts
with a chunk whose parts extend the current chunk and whose text joins
its parts. -/
theorem chunkParasAux_head (csize ov : Nat) :
    ∀ (ps cur : List String) (size idx), cur ≠ [] →
      ∃ c tail rest, chunkParasAux csize ov ps cur size idx = c :: tail ∧
        c.parts = cur ++ rest ∧ c.text = joinSep "\n\n" c.parts
  | [], cur, size, idx, h => by
    refine ⟨mkFlushChunk cur "\n\n" idx size, [], [], ?_, by simp [mkFlushChunk], rfl⟩
    simp [chunkParasAux, List.isEmpty_iff, h]
  | p :: ps, cur, size, idx, h => by
    by_cases hf : size + wc p > csize ∧ ¬ cur.isEmpty
    · by_cases hov : 0 < ov
      · simp only [chunkParasAux, if_pos hf, if_pos hov]
        exact ⟨_, _, [], rfl, by simp [mkFlushChunk], rfl⟩
      · simp only [chunkParasAux, if_pos hf, if_neg hov]
        exact ⟨_, _, [], rfl, by simp [mkFlushChunk], rfl⟩
    · obtain ⟨c, tail, rest, heq, hparts, htext⟩ :=
        chunkParasAux_head csize ov ps (cur ++ [p]) (size + wc p) idx (by simp)
      refine ⟨c, tail, [p] ++ rest, ?_, ?_, htext⟩
      · simp only [chunkParasAux, if_neg hf]
        exact heq
      · rw [hparts, List.append_assoc]

/-- C8 paragraph half, on the loop: with a positive overlap every pair
of consecutive chunks satisfies the character-overlap relation. -/
theorem chunkParasAux_chain (csize ov : Nat) (hov : 0 < ov) :
    ∀ (ps cur : List String) (size idx),
      List.Chain' (paraOverlapRel ov) (chunkParasAux csize ov ps cur size idx)
  | [], cur, size, idx => by
    by_cases h : cur.isEmpty
    · simp [chunkParasAux, h]
    · simp [chunkParasAux, h]
  | p :: ps, cur, size, idx => by
    by_cases hf : size + wc p > csize ∧ ¬ cur.isEmpty
    · simp only [chunkParasAux, if_pos hf, if_pos hov]
      apply List.chain'_cons'.mpr
      constructor
      · intro b hb
        obtain ⟨c', tail', rest, heq, hparts, htext⟩ := chunkParasAux_head csize ov ps
          [takeLastChars ov (mkFlushChunk cur "\n\n" idx size).text, p]
          (wc (takeLastChars ov (mkFlushChunk cur "\n\n" idx size).text) + wc p) (idx + 1)
          (by simp)
        rw [heq] at hb
        simp only [List.head?_cons, Option.mem_def, Option.some.injEq] at hb
        subst hb
        unfold paraOverlapRel
        rw [htext, hparts]
        obtain ⟨t, ht⟩ := joinSep_append_exists "\n\n"
          [takeLastChars ov (mkFlushChunk cur "\n\n" idx size).text] (p :: rest) (by simp)
        exact ⟨t, by simpa [joinSep] using ht⟩
      · exact chunkParasAux_chain csize ov hov ps _ _ (idx + 1)
    · simp only [chunkParasAux, if_neg hf]
      exact chunkParasAux_chain csize ov hov ps _ _ idx

/-- Sentence-loop analogue of chunkParasAux_head. -/
theorem chunkSentsAux_head (csize ov : Nat) :
    ∀ (ss cur : List String) (size idx), cur ≠ [] →
      ∃ c tail rest, chunkSentsAux csize ov ss cur size idx = c :: tail ∧
        c.parts = cur ++ rest ∧ c.text = joinSep " " c.parts
  | [], cur, size, idx, h => by
    refine ⟨mkFlushChunk cur " " idx size, [], [], ?_, by simp [mkFlushChunk], rfl⟩
    simp [chunkSentsAux, List.isEmpty_iff, h]
  | s :: ss, cur, size, idx, h => by
    by_cases hsempty : pyStrip s = ""
    · obtain ⟨c, tail, rest, heq, hparts, htext⟩ :=
        chunkSentsAux_head csize ov ss cur size idx h
      refine ⟨c, tail, rest, ?_, hparts, htext⟩
      simp only [chunkSentsAux, if_pos hsempty]
      exact heq
    · by_cases hf : size + wc (pyStrip s) > csize ∧ ¬ cur.isEmpty
      · by_cases hov : 0 < ov ∧ 1 < cur.length
        · simp only [chunkSentsAux, if_neg hsempty, if_pos hf, if_pos hov]
          exact ⟨_, _, [], rfl, by simp [mkFlushChunk], rfl⟩
        · simp only [chunkSentsAux, if_neg hsempty, if_pos hf, if_neg hov]
          exact ⟨_, _, [], rfl, by simp [mkFlushChunk], rfl⟩
      · obtain ⟨c, tail, rest, heq, hparts, htext⟩ :=
          chunkSentsAux_head csize ov ss (cur ++ [pyStrip s]) (size + wc (pyStrip s)) idx (by simp)
        refine ⟨c, tail, [pyStrip s] ++ rest, ?_, ?_, htext⟩
        · simp only [chunkSentsAux, if_neg hsempty, if_neg hf]
          exact heq
        · rw [hparts, List.append_assoc]

/-- C8 sentence half, on the loop: with a positive overlap, whenever a
flushed chunk holds more than one sentence the next chunk starts with
its last two sentences. -/
theorem chunkSentsAux_chain (csize ov : Nat) (hov : 0 < ov) :
    ∀ (ss cur : List String) (size idx),
      List.Chain' sentOverlapRel (chunkSentsAux csize ov ss cur size idx)
  | [], cur, size, idx => by
    by_cases h : cur.isEmpty
    · simp [chunkSentsAux, h]
    · simp [chunkSentsAux, h]
  | s :: ss, cur, size, idx => by
    by_cases hsempty : pyStrip s = ""
    · simp only [chunkSentsAux, if_pos hsempty]
      exact chunkSentsAux_chain csize ov hov ss cur size idx
    · by_cases hf : size + wc (pyStrip s) > csize ∧ ¬ cur.isEmpty
      · by_cases hlen : 0 < ov ∧ 1 < cur.length
        · simp only [chunkSentsAux, if_neg hsempty, if_pos hf, if_pos hlen]
          apply List.chain'_cons'.mpr
          constructor
          · intro b hb
            obtain ⟨c', tail', rest, heq, hparts, htext⟩ := chunkSentsAux_head csize ov ss
              (listTakeLast 2 cur ++ [pyStrip s])
              ((List.map wc (listTakeLast 2 cur)).sum + wc (pyStrip s)) (idx + 1)
              (by simp)
            rw [heq] at hb
            simp only [List.head?_cons, Option.mem_def, Option.some.injEq] at hb
            subst hb
            intro _
            rw [htext, hparts]
            have hnn : listTakeLast 2 cur ≠ [] := listTakeLast_two_ne_nil cur hlen.2
            obtain ⟨t, ht⟩ := joinSep_append_exists " "
              (listTakeLast 2 cur) ([pyStrip s] ++ rest) hnn
            refine ⟨t, ?_⟩
            rw [← List.append_assoc] at ht
            simpa [mkFlushChunk] using ht
          · exact chunkSentsAux_chain csize ov hov ss _ _ (idx + 1)
        · simp only [chunkSentsAux, if_neg hsempty, if_pos hf, if_neg hlen]
          apply List.chain'_cons'.mpr
          constructor
          · intro b hb
            intro hgt
            exfalso
            exact hlen ⟨hov, by simpa [mkFlushChunk] using hgt⟩
          · exact chunkSentsAux_chain csize ov hov ss _ _ (idx + 1)
      · simp only [chunkSentsAux, if_neg hsempty, if_neg hf]
        exact chunkSentsAux_chain csize ov hov ss _ _ idx

/-! ## Claim C8 -/

/-- C8: the claim states that in paragraph mode the next chunk starts
with the last chunk_overlap WORDS of the flushed chunk, and that in
sentence mode any flushed chunk of more than one sentence hands its
last two sentences to the next chunk.  Both halves fail on concrete
inputs.  Paragraph mode carries characters, not words: with
chunk_size 3 and chunk_overlap 2, flushing "aa bb cc" seeds the next
chunk with the 2 characters "cc", not the 2 words "bb cc".  Sentence
mode carries nothing when chunk_overlap is 0, although the claim
states no overlap condition for it: the chunk "a b. c d." holds two
sentences, yet the next chunk is "e". -/
theorem c8_counterexample :
    ((chunkByParagraphs 3 2 ["aa bb cc", "dd"]).map (fun c => c.text) =
        ["aa bb cc", "cc\n\ndd"] ∧
      joinSep " " (listTakeLast 2 (pyWords "aa bb cc")) = "bb cc" ∧
      ¬ StrPre (joinSep " " (listTakeLast 2 (pyWords "aa bb cc"))) "cc\n\ndd") ∧
    ((chunkBySentences 4 0 "a b. c d. e").map (fun c => c.parts) =
        [["a b.", "c d."], ["e"]] ∧
      (chunkBySentences 4 0 "a b. c d. e").map (fun c => c.text) = ["a b. c d.", "e"] ∧
      ¬ StrPre (joinSep " " (listTakeLast 2 ["a b.", "c d."])) "e") := by
  exact ⟨⟨by decide, by decide, by decide⟩, ⟨by decide, by decide, by decide⟩⟩

/-- C8 (amended): with a positive chunk_overlap, consecutive
paragraph-mode chunks overlap by the last chunk_overlap CHARACTERS of
the flushed chunk text, and consecutive sentence-mode chunks overlap
by the last two sentences whenever the flushed chunk had more than one
sentence AND chunk_overlap is positive. -/
theorem c8_overlap_amended :
    (∀ (csize ov : Nat) (ps : List String), 0 < ov →
      List.Chain' (paraOverlapRel ov) (chunkByParagraphs csize ov ps)) ∧
    (∀ (csize ov : Nat) (text : String), 0 < ov →
      List.Chain' sentOverlapRel (chunkBySentences csize ov text)) := by
  constructor
  · intro csize ov ps hov
    exact chunkParasAux_chain csize ov hov ps [] 0 0
  · intro csize ov text hov
    exact chunkSentsAux_chain csize ov hov (splitSentences text) [] 0 0

/-- C8 witness: the amended overlap laws at the concrete inputs of the
counterexample (with overlap 1 for sentence mode). -/
theorem c8_witness :
    List.Chain' (paraOverlapRel 2) (chunkByParagraphs 3 2 ["aa bb cc", "dd"]) ∧
    List.Chain' sentOverlapRel (chunkBySentences 4 1 "a b. c d. e") :=
  ⟨c8_overlap_amended.1 3 2 ["aa bb cc", "dd"] (by decide),
   c8_overlap_amended.2 4 1 "a b. c d. e" (by decide)⟩

/-- Every entry of the combined hybrid dict carries its key as text
and the claim's combined score formula. -/
theorem hybrid_combined_formula (wd wb : ℚ) (dr br : List SRes)
    (hdn : (dr.map (fun r => r.text)).Nodup)
    (hbn : (br.map (fun r => r.text)).Nodup)
    (hd0 : ∀ r ∈ dr, 0 ≤ r.score)
    (hb0 : ∀ r ∈ br, 0 ≤ r.score) :
    ∀ p ∈ hybridBm25Pass wb br (hybridDensePass wd dr),
      p.2.text = p.1 ∧
      p.2.score = specDenseContrib wd dr p.1 + specBm25Contrib wb br p.1 := by
  have hsd_mem : 0 < pyMax (dr.map (fun r => r.score)) → ∀ r ∈ dr,
      specDenseContrib wd dr r.text = wd * (r.score / pyMax (dr.map (fun x => x.score))) := by
    intro hmd r hr
    simp only [specDenseContrib]
    rw [if_neg (ne_of_gt hmd), find?_text_of_nodup dr r hdn hr]
  have hsb_mem : 0 < pyMax (br.map (fun r => r.score)) → ∀ r ∈ br,
      specBm25Contrib wb br r.text = wb * (r.score / pyMax (br.map (fun x => x.score))) := by
    intro hmb r hr
    simp only [specBm25Contrib]
    rw [if_neg (ne_of_gt hmb), find?_text_of_nodup br r hbn hr]
  have hsd_zero : ∀ t, (∀ r ∈ dr, r.text ≠ t) → specDenseContrib wd dr t = 0 := by
    intro t hnot
    simp only [specDenseContrib]
    split
    · rfl
    · rw [List.find?_eq_none.mpr (fun x hx => by simpa using hnot x hx)]
  have hsb_zero : ∀ t, (∀ r ∈ br, r.text ≠ t) → specBm25Contrib wb br t = 0 := by
    intro t hnot
    simp only [specBm25Contrib]
    split
    · rfl
    · rw [List.find?_eq_none.mpr (fun x hx => by simpa using hnot x hx)]
  have hsb_found : ∀ t r, br.find? (fun x => x.text = t) = some r →
      0 < pyMax (br.map (fun x => x.score)) →
      specBm25Contrib wb br t = wb * (r.score / pyMax (br.map (fun x => x.score))) := by
    intro t r hf hmb
    simp only [specBm25Contrib]
    rw [if_neg (ne_of_gt hmb), hf]
  by_cases hmd : 0 < pyMax (dr.map (fun r => r.score))
  · have hDP : hybridDensePass wd dr =
        dr.map (fun r => (r.text, hDMk wd (pyMax (dr.map (fun x => x.score))) r)) := by
      simp only [hybridDensePass, if_pos hmd]
      exact foldl_alistSet_fresh _ dr [] (fun r _ => rfl) hdn
    have hkeys : ((hybridDensePass wd dr).map (fun p => p.1)).Nodup := by
      rw [hDP, List.map_map]
      simpa [Function.comp] using hdn
    by_cases hmb : 0 < pyMax (br.map (fun r => r.score))
    · have hBP : hybridBm25Pass wb br (hybridDensePass wd dr) =
          (hybridDensePass wd dr).map (hUpdBy wb (pyMax (br.map (fun x => x.score))) br) ++
          (br.filter (fun r => (alistGet (hybridDensePass wd dr) r.text).isNone)).map
            (fun r => (r.text, hBMk wb (pyMax (br.map (fun x => x.score))) r)) := by
        simp only [hybridBm25Pass, if_pos hmb]
        exact foldl_bm25_structure wb _ br _ hbn hkeys
      intro p hp
      rw [hBP, List.mem_append] at hp
      rcases hp with hp | hp
      · rw [hDP, List.map_map] at hp
        obtain ⟨rd, hrd, hpe⟩ := List.mem_map.mp hp
        rw [Function.comp_apply] at hpe
        subst hpe
        rcases hfb : br.find? (fun x => x.text = rd.text) with _ | rb
        · rw [hUpdBy_notfound _ _ br _ hfb]
          refine ⟨rfl, ?_⟩
          show (hDMk wd _ rd).score = _
          rw [hsd_mem hmd rd hrd, hsb_zero rd.text
            (fun r hr => by simpa using List.find?_eq_none.mp hfb r hr)]
          simp [hDMk]
        · rw [hUpdBy_found _ _ br _ rb hfb]
          refine ⟨rfl, ?_⟩
          show (hBUpd wb _ (hDMk wd _ rd) rb).score = _
          rw [hsd_mem hmd rd hrd, hsb_found rd.text rb hfb hmb]
          simp [hBUpd, hDMk]
      · obtain ⟨rb, hrb, hpe⟩ := List.mem_map.mp hp
        subst hpe
        have hrbm : rb ∈ br := (List.mem_filter.mp hrb).1
        have hnone : (alistGet (hybridDensePass wd dr) rb.text).isNone = true :=
          (List.mem_filter.mp hrb).2
        refine ⟨rfl, ?_⟩
        show (hBMk wb _ rb).score = _
        have hdz : specDenseContrib wd dr rb.text = 0 := by
          apply hsd_zero
          intro r hr hc
          have : rb.text ∈ (hybridDensePass wd dr).map (fun p => p.1) := by
            rw [hDP, List.map_map]
            exact hc ▸ List.mem_map_of_mem _ hr
          rw [Option.isNone_iff_eq_none] at hnone
          exact (alistGet_eq_none _ _).mp hnone this
        rw [hdz, hsb_mem hmb rb hrbm]
        simp [hBMk]
    · have hBP : hybridBm25Pass wb br (hybridDensePass wd dr) = hybridDensePass wd dr := by
        simp only [hybridBm25Pass, if_neg hmb]
      have hmb0 : pyMax (br.map (fun r => r.score)) = 0 := by
        have h0 := pyMax_nonneg (br.map (fun r => r.score)) (by
          intro x hx
          obtain ⟨r, hr, hxe⟩ := List.mem_map.mp hx
          exact hxe ▸ hb0 r hr)
        exact le_antisymm (not_lt.mp hmb) h0
      intro p hp
      rw [hBP, hDP] at hp
      obtain ⟨rd, hrd, hpe⟩ := List.mem_map.mp hp
      subst hpe
      refine ⟨rfl, ?_⟩
      show (hDMk wd _ rd).score = _
      rw [hsd_mem hmd rd hrd]
      rw [show specBm25Contrib wb br rd.text = 0 from by simp [specBm25Contrib, hmb0]]
      simp [hDMk]
  · have hDP0 : hybridDensePass wd dr = [] := by
      simp only [hybridDensePass, if_neg hmd]
    have hmd0 : pyMax (dr.map (fun r => r.score)) = 0 := by
      have := pyMax_nonneg (dr.map (fun r => r.score)) (by
        intro x hx
        obtain ⟨r, hr, hxe⟩ := List.mem_map.mp hx
        exact hxe ▸ hd0 r hr)
      linarith [not_lt.mp hmd]
    by_cases hmb : 0 < pyMax (br.map (fun r => r.score))
    · have hBP : hybridBm25Pass wb br (hybridDensePass wd dr) =
          (br.filter (fun r => (alistGet (hybridDensePass wd dr) r.text).isNone)).map
            (fun r => (r.text, hBMk wb (pyMax (br.map (fun x => x.score))) r)) := by
        simp only [hybridBm25Pass, if_pos hmb]
        rw [foldl_bm25_structure wb _ br _ hbn (by rw [hDP0]; simp)]
        rw [hDP0]
        simp
      intro p hp
      rw [hBP] at hp
      obtain ⟨rb, hrb, hpe⟩ := List.mem_map.mp hp
      subst hpe
      have hrbm : rb ∈ br := (List.mem_filter.mp hrb).1
      refine ⟨rfl, ?_⟩
      show (hBMk wb _ rb).score = _
      rw [show specDenseContrib wd dr rb.text = 0 from by simp [specDenseContrib, hmd0]]
      rw [hsb_mem hmb rb hrbm]
      simp [hBMk]
    · have hBP : hybridBm25Pass wb br (hybridDensePass wd dr) = hybridDensePass wd dr := by
        simp only [hybridBm25Pass, if_neg hmb]
      intro p hp
      rw [hBP, hDP0] at hp
      simp at hp

/-! ## Claim C6 -/

/-- C6: confirmed.  For every query and top_k, hybrid search runs both
retrievers with limit 2·top_k, assigns each unique text the combined
score w_dense·normalized_dense + w_bm25·normalized_bm25 where each
normalization divides by the set's own maximum (a set whose maximum is
0 contributes nothing, and a text found by only one retriever receives
only that retriever's weighted term), and returns the top_k entries in
descending combined-score order.  Hypotheses: scores are non-negative
(both retrievers return similarity scores; BM25 results are filtered
to positive scores at the source) and texts within one result set are
distinct (the per-text dict is otherwise ill-defined). -/
theorem c6_hybrid_search (dS bS : String → Nat → List SRes) (wd wb : ℚ) (q : String)
    (k : Nat)
    (hdn : ((dS q (k * 2)).map (fun r => r.text)).Nodup)
    (hbn : ((bS q (k * 2)).map (fun r => r.text)).Nodup)
    (hd0 : ∀ r ∈ dS q (k * 2), 0 ≤ r.score)
    (hb0 : ∀ r ∈ bS q (k * 2), 0 ≤ r.score) :
    (∀ e ∈ hybridSearch dS bS wd wb q k,
      e.score = specDenseContrib wd (dS q (k * 2)) e.text +
        specBm25Contrib wb (bS q (k * 2)) e.text) ∧
    ∃ sorted : List HRes,
      List.Perm ((hybridBm25Pass wb (bS q (k * 2))
        (hybridDensePass wd (dS q (k * 2)))).map (fun p => p.2)) sorted ∧
      sorted.Pairwise (fun a b => b.score ≤ a.score) ∧
      hybridSearch dS bS wd wb q k = sorted.take k := by
  haveI hTot : IsTotal HRes (fun a b => b.score ≤ a.score) :=
    ⟨fun a b => le_total b.score a.score⟩
  haveI hTrans : IsTrans HRes (fun a b => b.score ≤ a.score) :=
    ⟨fun a b c hab hbc => le_trans hbc hab⟩
  have hform := hybrid_combined_formula wd wb (dS q (k * 2)) (bS q (k * 2)) hdn hbn hd0 hb0
  refine ⟨?_, ?_⟩
  · intro e he
    have hmem : e ∈ List.insertionSort (fun a b => b.score ≤ a.score)
        ((hybridBm25Pass wb (bS q (k * 2))
          (hybridDensePass wd (dS q (k * 2)))).map (fun p => p.2)) :=
      List.mem_of_mem_take he
    have hval : e ∈ (hybridBm25Pass wb (bS q (k * 2))
        (hybridDensePass wd (dS q (k * 2)))).map (fun p => p.2) :=
      (List.perm_insertionSort _ _).mem_iff.mp hmem
    obtain ⟨p, hp, hpe⟩ := List.mem_map.mp hval
    obtain ⟨htext, hscore⟩ := hform p hp
    rw [← hpe, hscore, htext]
  · refine ⟨List.insertionSort (fun a b => b.score ≤ a.score)
      ((hybridBm25Pass wb (bS q (k * 2))
        (hybridDensePass wd (dS q (k * 2)))).map (fun p : String × HRes => p.2)), ?_, ?_, ?_⟩
    · exact (List.perm_insertionSort _ _).symm
    · exact List.sorted_insertionSort _ _
    · rfl

/-- C6 witness: the hybrid combination at a concrete pair of result
sets, with default weights 0.7 and 0.3. -/
theorem c6_witness :
    (∀ e ∈ hybridSearch (fun _ _ => [⟨"A", some 1, 4⟩, ⟨"B", some 2, 2⟩])
        (fun _ _ => [⟨"B", some 2, 10⟩, ⟨"C", some 3, 5⟩]) (7/10) (3/10) "q" 2,
      e.score = specDenseContrib (7/10) [⟨"A", some 1, 4⟩, ⟨"B", some 2, 2⟩] e.text +
        specBm25Contrib (3/10) [⟨"B", some 2, 10⟩, ⟨"C", some 3, 5⟩] e.text) ∧
    ∃ sorted : List HRes,
      List.Perm ((hybridBm25Pass (3/10) [⟨"B", some 2, 10⟩, ⟨"C", some 3, 5⟩]
        (hybridDensePass (7/10) [⟨"A", some 1, 4⟩, ⟨"B", some 2, 2⟩])).map (fun p => p.2))
        sorted ∧
      sorted.Pairwise (fun a b => b.score ≤ a.score) ∧
      hybridSearch (fun _ _ => [⟨"A", some 1, 4⟩, ⟨"B", some 2, 2⟩])
        (fun _ _ => [⟨"B", some 2, 10⟩, ⟨"C", some 3, 5⟩]) (7/10) (3/10) "q" 2 =
        sorted.take 2 := by
  exact c6_hybrid_search (fun _ _ => [⟨"A", some 1, 4⟩, ⟨"B", some 2, 2⟩])
    (fun _ _ => [⟨"B", some 2, 10⟩, ⟨"C", some 3, 5⟩]) (7/10) (3/10) "q" 2
    (by decide) (by decide) (by decide) (by decide)

/-! ## Claim C2 -/

/-- C2: the claim states that a failing batch embedding call is
replaced by mock vectors only when the provider is configured as mock,
and that for any other provider the failure propagates.  This is false
at a concrete input: with provider openai, a configured key and a
failing call, embed_texts returns exactly the mock substitution (the
normalized random rows), identical to what the mock configuration
produces, and no error propagates. -/
theorem c2_counterexample :
    embedTexts "openai" (some "sk-test") (.error "api down") (fun _ => [1])
        (fun rows => rows) ["a", "b"] =
      embedTexts "mock" none (.error "api down") (fun _ => [1]) (fun rows => rows) ["a", "b"] ∧
    "openai" ≠ "mock" := by
  constructor
  · rfl
  · decide

/-- C2 (amended): when the batch embedding call fails, embed_texts
substitutes the random-valued rows (then normalizes them) for EVERY
provider configuration, openai included; the failure never propagates
out of embed_texts. -/
theorem c2_embed_fallback_amended (provider : String) (apiKey : Option String)
    (e : String) (randRow : Nat → List ℚ) (normalize : List (List ℚ) → List (List ℚ))
    (texts : List String) :
    embedTexts provider apiKey (.error e) randRow normalize texts =
      normalize ((List.range texts.length).map randRow) := by
  by_cases h : provider = "openai" ∧ keyTruthy apiKey
  · simp [embedTexts, h]
  · simp [embedTexts, h]

/-! ## Claim C1 -/

/-- C1: the claim states that the query path consults the query cache
before retrieval, stores the response on a miss, and that a repeated
identical query hits the cache and increments the hit counter.  This
is false at a concrete input: after two identical query_documents
calls the cache is untouched, holds no entry and its hit counter is
still 0, because query_documents never invokes the cache. -/
theorem c1_counterexample :
    ((queryDocuments "dense" (fun _ _ => []) (fun _ _ _ => "answer")
      (queryDocuments "dense" (fun _ _ => []) (fun _ _ _ => "answer")
        { entries := [], maxsize := 1000, ttl := 300, hit_count := 0, miss_count := 0 }
        "What is Python?" "dense" 5).2
      "What is Python?" "dense" 5).2 =
      { entries := [], maxsize := 1000, ttl := 300, hit_count := 0, miss_count := 0 } ∧
    ({ entries := [], maxsize := 1000, ttl := 300, hit_count := 0,
       miss_count := 0 : QueryCache }).hit_count = 0) := by
  constructor
  · rfl
  · rfl

/-- C1 (amended): the QueryCache class itself implements lookup and
store under the key (question.lower().strip(), retriever_type, top_k)
— a get after a set with an equivalent question returns the stored
response within the TTL and increments the hit counter — but the query
path never consults it: query_documents performs retrieval
unconditionally and returns the cache state unchanged, so repeated
identical queries never hit the cache. -/
theorem c1_query_cache_amended :
    (∀ (c : QueryCache) (q q' rt : String) (k : Nat) (v : QResponse) (now now' : ℚ),
      cacheKey q rt k = cacheKey q' rt k →
      now' < now + c.ttl →
      c.entries.length < c.maxsize →
      (cacheGet (cacheSet c q rt k v now) q' rt k now').1 = some v ∧
      (cacheGet (cacheSet c q rt k v now) q' rt k now').2.hit_count = c.hit_count + 1) ∧
    (∀ (rn : String) (rf : String → Nat → List SRes)
      (gf : String → List SRes → String → String) (c : QueryCache) (q rt : String) (k : Nat),
      (queryDocuments rn rf gf c q rt k).2 = c) := by
  constructor
  · intro c q q' rt k v now now' hkey httl hsize
    have hfilterlen : (c.entries.filter (fun e => decide (now < e.2.2 + c.ttl))).length ≤ c.entries.length :=
      List.length_filter_le _ _
    have hslen := alistSet_length_le (c.entries.filter (fun e => decide (now < e.2.2 + c.ttl)))
      (cacheKey q rt k) (v, now)
    have hnodrop : ¬ c.maxsize <
        (alistSet (c.entries.filter (fun e => decide (now < e.2.2 + c.ttl)))
          (cacheKey q rt k) (v, now)).length := by omega
    have hfind := find?_alistSet_self
      (c.entries.filter (fun e => decide (now < e.2.2 + c.ttl))) (cacheKey q rt k) (v, now)
    constructor
    · simp only [cacheGet, cacheSet, if_neg hnodrop, ← hkey, hfind, httl, if_pos]
    · simp only [cacheGet, cacheSet, if_neg hnodrop, ← hkey, hfind, httl, if_pos]
  · intro rn rf gf c q rt k
    rfl

/-- C1 witness: the cache round trip at a concrete state (a question
differing in case and surrounding whitespace is the same key), and the
untouched cache of a concrete query_documents call. -/
theorem c1_witness :
    ((cacheGet (cacheSet c1Cache0 "  What is PYTHON? " "dense" 5 c1Resp 1)
        "what is python?" "dense" 5 2).1 = some c1Resp ∧
      (cacheGet (cacheSet c1Cache0 "  What is PYTHON? " "dense" 5 c1Resp 1)
        "what is python?" "dense" 5 2).2.hit_count = c1Cache0.hit_count + 1) ∧
    (queryDocuments "dense" (fun _ _ => []) (fun _ _ _ => "ans") c1Cache0 "q" "dense" 5).2 =
      c1Cache0 := by
  constructor
  · exact c1_query_cache_amended.1 c1Cache0 "  What is PYTHON? " "what is python?" "dense" 5
      c1Resp 1 2 (by decide) (by norm_num [c1Cache0]) (by decide)
  · exact c1_query_cache_amended.2 "dense" (fun _ _ => []) (fun _ _ _ => "ans") c1Cache0 "q" "dense" 5

/-! ## Claim C3 -/

/-- C3: the claim states that update_job rejects a non-terminal status
patch on a terminally completed job, leaving the stored status
unchanged.  This is false at a concrete input: patching a success job
with status queued succeeds and the stored status becomes queued. -/
theorem c3_counterexample :
    (updateJob c3State "j1" { status := some .queued } 2 3).map
      (fun p => (p.1, (getJob p.2 "j1" 0).map (fun j => j.status))) =
      some (true, some .queued) ∧
    JobStatus.queued ≠ JobStatus.success := by
  constructor
  · decide
  · decide

/-- C3 (amended): update_job performs no terminal-status guard at all:
for every stored job, every patch with a defined post-patch message is
applied field-wise (status included, terminal or not), updated_at is
refreshed, and the call reports True; False is reported only when the
job does not exist. -/
theorem c3_update_applies_patch_amended (st : RedisState) (id : String) (p : JobPatch)
    (nowG nowS : ℚ) (cur : JobState) (h : getJob st id nowG = some cur)
    (hmsg : (patchMessage p cur).isSome) (hca : cur.created_at ≠ 0) (hns : nowS ≠ 0) :
    (∃ st', updateJob st id p nowG nowS = some (true, st') ∧
      ∀ t, getJob st' id t = some (applyPatch cur p nowS)) ∧
    (applyPatch cur p nowS).status = p.status.getD cur.status ∧
    (∀ nowG' nowS', getJob st id nowG' = none → updateJob st id p nowG' nowS' = some (false, st)) := by
  refine ⟨updateJob_spec st id p nowG nowS cur h hmsg hca hns, rfl, ?_⟩
  intro nowG' nowS' hnone
  simp [updateJob, hnone]

/-- C3 witness: the amended theorem applied to the concrete terminal
job, patching status success to queued. -/
theorem c3_witness :
    (∃ st', updateJob c3State "j1" { status := some .queued } 2 3 = some (true, st') ∧
      ∀ t, getJob st' "j1" t =
        some (applyPatch (mkJobAt "j1" .success (some "done")) { status := some .queued } 3)) ∧
    (applyPatch (mkJobAt "j1" .success (some "done")) { status := some .queued } 3).status =
      (some JobStatus.queued).getD (mkJobAt "j1" .success (some "done")).status := by
  have h := c3_update_applies_patch_amended c3State "j1" { status := some .queued } 2 3
    (mkJobAt "j1" .success (some "done")) (by decide) (by decide) (by decide) (by decide)
  exact ⟨h.1, h.2.1⟩

/-! ## Claim C4 -/

/-- C4: the claim (and the spec) state that create_job fails with
AdmissionDenied exactly when the number of jobs with status queued or
running meets or exceeds the ceiling.  The code samples only the first
(ceiling + 1) members of the jobs:active set, whose iteration order is
arbitrary and which retains terminal jobs until cleanup.  At this
concrete state — two completed jobs iterated first, ten queued jobs
after them, ceiling 10 — the queued count equals the ceiling yet
create_job succeeds, because the truncated sample sees only nine
queued jobs.  This matches the spec's own boundary test (accepted
count must stay at or under the limit) being violated, so the code,
not the claim, is wrong. -/
theorem c4_admission_bug :
    (createJob c4State 10 300 3 "newj" 5 5 0).isOk = true ∧
    10 ≤ activeQRCount c4State := by
  constructor
  · decide
  · decide

/-! ## Claim C5 -/

/-- C5: the claim states that a reconnect presenting a Last-Event-ID
found in the job history replays every later history event after the
connection_start event.  The code cannot: create_sse_event overwrites
connection.last_event_id with the id of the connection_start event it
emits, before get_missed_events reads it, so the replay block is
always empty.  At this concrete state the presented id evt_a has a
later history event (evt_b, as get_missed_events applied to the
original connection state confirms), yet the emitted prelude carries
no replay event — contradicting the repository's own reconnection
test, which asserts replay events arrive. -/
theorem c5_replay_bug :
    getMissedEvents c5State c5Conn = [c5e2] ∧
    (streamPrelude c5State c5Conn "evt_conn_1" 30 12).1.map (fun e => e.event_type) =
      ["connection"] := by
  constructor
  · rfl
  · rfl

/-- One worker update call leaves the vector store, the BM25 state and
the heap untouched and patches the job. -/
theorem wUpdate_spec (w : IngestWorld) (jobId : String) (p : JobPatch) (now : ℚ)
    (cur : JobState) (h : getJob w.reg jobId now = some cur)
    (hmsg : (patchMessage p cur).isSome) (hca : cur.created_at ≠ 0) (hns : now ≠ 0) :
    ∃ w', wUpdate w jobId p now = some w' ∧ w'.qdrant = w.qdrant ∧
      w'.bm25 = w.bm25 ∧ w'.heap = w.heap ∧
      ∀ t, getJob w'.reg jobId t = some (applyPatch cur p now) := by
  obtain ⟨st', hrun, hget⟩ := updateJob_spec w.reg jobId p now now cur h hmsg hca hns
  refine ⟨{ w with reg := st' }, ?_, rfl, rfl, rfl, hget⟩
  simp only [wUpdate, hrun]

/-! ## Claim C7 -/

/-- C7: the first half of the claim holds (empty content after
sanitization terminates the job with error and the message
"No content after cleaning", with no vector upserts and no
lexical-index additions), but the zero-chunks message is wrong: at the
concrete html input the worker stores the message
"No chunks created from content", not "No chunks created", again with
zero vector and index writes. -/
theorem c7_counterexample :
    (runIngestJob c7World "j1" "<p></p>" .html (fun _ => []) (fun _ => "u") 2).map
      (fun w => ((getJob w.reg "j1" 0).map (fun j => (j.status, j.message)),
                 w.qdrant.length, w.bm25.documents.length, w.heap.cells.length)) =
      some (some (.error, some "No chunks created from content"), 0, 0, 0) ∧
    "No chunks created from content" ≠ "No chunks created" := by
  constructor
  · decide
  · decide

/-- C7 (amended): for any stored job, if the fetched content strips to
empty the worker terminates the job with status error and message
"No content after cleaning", and if chunking yields zero chunks it
terminates with status error and message
"No chunks created from content"; in both paths the vector store, the
BM25 index and the heap are unchanged. -/
theorem c7_ingest_error_paths_amended (w : IngestWorld) (jobId fetched : String)
    (dtype : DocType) (embed : List String → List (List ℚ)) (uuidGen : Nat → String)
    (now : ℚ) (cur : JobState) (h : getJob w.reg jobId now = some cur)
    (hca : cur.created_at ≠ 0) (hnz : now ≠ 0) :
    (pyStrip fetched = "" →
      ∃ w', runIngestJob w jobId fetched dtype embed uuidGen now = some w' ∧
        w'.qdrant = w.qdrant ∧ w'.bm25 = w.bm25 ∧ w'.heap = w.heap ∧
        ∀ t, (getJob w'.reg jobId t).map (fun j => (j.status, j.message)) =
          some (JobStatus.error, some "No content after cleaning")) ∧
    (pyStrip fetched ≠ "" → chunkText 800 200 true true dtype fetched = [] →
      ∃ w', runIngestJob w jobId fetched dtype embed uuidGen now = some w' ∧
        w'.qdrant = w.qdrant ∧ w'.bm25 = w.bm25 ∧ w'.heap = w.heap ∧
        ∀ t, (getJob w'.reg jobId t).map (fun j => (j.status, j.message)) =
          some (JobStatus.error, some "No chunks created from content")) := by
  obtain ⟨w1, hw1, hq1, hb1, hh1, hget1⟩ := wUpdate_spec w jobId
    { status := some .running, stage := some "fetching", progress := some 10,
      message := some "Fetching and cleaning content..." } now cur h (by simp [patchMessage]) hca hnz
  constructor
  · intro hempty
    obtain ⟨w2, hw2, hq2, hb2, hh2, hget2⟩ := wUpdate_spec w1 jobId
      { status := some .error, message := some "No content after cleaning" } now _
      (hget1 now) (by simp [patchMessage]) hca hnz
    refine ⟨w2, ?_, by rw [hq2, hq1], by rw [hb2, hb1], by rw [hh2, hh1], ?_⟩
    · simp only [runIngestJob, hw1, if_pos hempty]
      exact hw2
    · intro t
      rw [hget2 t]
      rfl
  · intro hnon hchunks
    obtain ⟨w2, hw2, hq2, hb2, hh2, hget2⟩ := wUpdate_spec w1 jobId
      { stage := some "chunking", progress := some 20,
        message := some "Creating semantic chunks..." } now _
      (hget1 now) (by simp [patchMessage]) hca hnz
    obtain ⟨w3, hw3, hq3, hb3, hh3, hget3⟩ := wUpdate_spec w2 jobId
      { status := some .error, message := some "No chunks created from content" } now _
      (hget2 now) (by simp [patchMessage]) hca hnz
    refine ⟨w3, ?_, by rw [hq3, hq2, hq1], by rw [hb3, hb2, hb1], by rw [hh3, hh2, hh1], ?_⟩
    · simp only [runIngestJob, hw1, if_neg hnon, hw2, hchunks, List.isEmpty_nil, if_pos]
      exact hw3
    · intro t
      rw [hget3 t]
      rfl

/-- C7 witness: the amended theorem at the concrete world, for
whitespace content (first half) and for the zero-chunk html input
(second half). -/
theorem c7_witness :
    (∃ w', runIngestJob c7World "j1" "   " .text (fun _ => []) (fun _ => "u") 2 = some w' ∧
      w'.qdrant = c7World.qdrant ∧ w'.bm25 = c7World.bm25 ∧ w'.heap = c7World.heap ∧
      ∀ t, (getJob w'.reg "j1" t).map (fun j => (j.status, j.message)) =
        some (JobStatus.error, some "No content after cleaning")) ∧
    (∃ w', runIngestJob c7World "j1" "<p></p>" .html (fun _ => []) (fun _ => "u") 2 = some w' ∧
      w'.qdrant = c7World.qdrant ∧ w'.bm25 = c7World.bm25 ∧ w'.heap = c7World.heap ∧
      ∀ t, (getJob w'.reg "j1" t).map (fun j => (j.status, j.message)) =
        some (JobStatus.error, some "No chunks created from content")) := by
  constructor
  · exact (c7_ingest_error_paths_amended c7World "j1" "   " .text (fun _ => []) (fun _ => "u") 2
      (mkJobAt "j1" .queued none) (by decide) (by decide) (by decide)).1 (by decide)
  · exact (c7_ingest_error_paths_amended c7World "j1" "<p></p>" .html (fun _ => []) (fun _ => "u") 2
      (mkJobAt "j1" .queued none) (by decide) (by decide) (by decide)).2 (by decide) (by decide)

/-! ## Claim C9 -/

/-- C9: a successful create_job followed immediately by get_job on the
returned id reads back a job equal field-by-field to the created one:
status queued, stage initialized, progress 0, no message, zero chunks,
zero retries, the requested max_retries and timeout_seconds, empty
metadata, and the created_at and updated_at stamps of creation.  The
clock hypotheses rule out the 0.0 sentinel that __post_init__ would
overwrite. -/
theorem c9_create_get_roundtrip (st : RedisState) (maxConc timeout maxRetries : Nat)
    (newId : String) (nowC nowU nowPost : ℚ) (job : JobState) (st' : RedisState)
    (h : createJob st maxConc timeout maxRetries newId nowC nowU nowPost = .ok (job, st'))
    (hc : nowC ≠ 0) (hu : nowU ≠ 0) :
    (∀ t, getJob st' newId t = some job) ∧
    job.status = .queued ∧ job.stage = "initialized" ∧ job.progress = 0 ∧
    job.message = none ∧ job.chunks_created = 0 ∧ job.retry_count = 0 ∧
    job.max_retries = maxRetries ∧ job.timeout_seconds = timeout ∧
    job.metadata = [] ∧ job.created_at = nowC ∧ job.updated_at = nowU := by
  simp only [createJob] at h
  split at h
  · exact absurd h (by simp)
  · rw [Except.ok.injEq, Prod.mk.injEq] at h
    obtain ⟨hjob, hst⟩ := h
    subst hjob
    refine ⟨?_, rfl, rfl, rfl, rfl, rfl, rfl, rfl, rfl, rfl, rfl, rfl⟩
    intro t
    rw [← hst]
    simp only [getJob, publishEvent, jobKey]
    rw [show ∀ l v, alistGet (alistSet l ("job:" ++ newId) v) ("job:" ++ newId) = some v from
      fun l v => alistGet_set_self l _ v]
    exact decodeJob_encodeJobCreate _ t hc hu

/-- C9 witness: creating a job in the empty registry at clocks 5 and 6
and reading it back. -/
theorem c9_witness :
    ∃ job st', createJob { jobs := [], active := [], published := [], history := [] }
        10 300 3 "n1" 5 6 0 = .ok (job, st') ∧
      (∀ t, getJob st' "n1" t = some job) ∧ job.status = .queued ∧ job.max_retries = 3 := by
  rcases hok : createJob { jobs := [], active := [], published := [], history := [] }
      10 300 3 "n1" 5 6 0 with e | ⟨job, st'⟩
  · have hOk : (createJob { jobs := [], active := [], published := [], history := [] }
        10 300 3 "n1" 5 6 0).isOk = true := by decide
    rw [hok] at hOk
    simp [Except.isOk, Except.toBool] at hOk
  · have h := c9_create_get_roundtrip _ 10 300 3 "n1" 5 6 0 job st' hok
      (by decide) (by decide)
    exact ⟨job, st', rfl, h.1, h.2.1, h.2.2.2.2.2.2.2.1⟩

/-! ## Claim C10 -/

/-- Lookups below the old length are unchanged when the heap is only
extended at the end. -/
theorem look_of_extends (h h2 : Heap) (ext : List PyDict) (hx : h2.cells = h.cells ++ ext)
    (r : Nat) (hr : r < h.cells.length) : h2.look r = h.look r := by
  simp only [Heap.look, hx]
  rw [List.getElem?_append]
  exact if_pos hr

/-- Lookup of the first freshly appended cell. -/
theorem look_at_boundary (h2 : Heap) (cs : List PyDict) (d : PyDict) (ext : List PyDict)
    (hx : h2.cells = cs ++ ([d] ++ ext)) : h2.look cs.length = some d := by
  simp only [Heap.look, hx]
  rw [List.getElem?_append_right (le_refl _)]
  simp

/-- Mutating one cell leaves every other cell's content unchanged. -/
theorem look_mutate_ne (h : Heap) (r r' : Nat) (d : PyDict) (hne : r ≠ r') :
    (h.mutate r d).look r' = h.look r' := by
  simp only [Heap.look, Heap.mutate]
  exact List.getElem?_set_ne hne

/-- Frame property of the result-building loop of InMemoryBM25.search:
the heap is only extended at the end, and every collected reference is
fresh (at or beyond the old heap length) and holds a copy of a stored
document with a score field written into the copy. -/
theorem bm25CollectLoop_spec (docs : List Nat) (scores : List ℚ) :
    ∀ (idxs : List Nat) (heap : Heap), (∀ r ∈ docs, r < heap.cells.length) →
      ∃ ext, (bm25CollectLoop docs scores idxs heap).2.cells = heap.cells ++ ext ∧
        ∀ r' ∈ (bm25CollectLoop docs scores idxs heap).1,
          heap.cells.length ≤ r' ∧
          ∃ rd, rd ∈ docs ∧ ∃ d s, heap.look rd = some d ∧
            (bm25CollectLoop docs scores idxs heap).2.look r' =
              some (alistSet d "score" (.num s)) := by
  intro idxs
  induction idxs with
  | nil =>
    intro heap _
    exact ⟨[], by simp [bm25CollectLoop], by simp [bm25CollectLoop]⟩
  | cons i is ih =>
    intro heap hd
    by_cases hs : 0 < scoreAt scores i
    · cases hdi : docs[i]? with
      | none =>
        have he : bm25CollectLoop docs scores (i :: is) heap =
            bm25CollectLoop docs scores is heap := by
          simp only [bm25CollectLoop]
          rw [if_pos hs]
          simp only [hdi]
        rw [he]
        exact ih heap hd
      | some r =>
        cases hlr : heap.look r with
        | none =>
          have he : bm25CollectLoop docs scores (i :: is) heap =
              bm25CollectLoop docs scores is heap := by
            simp only [bm25CollectLoop]
            rw [if_pos hs]
            simp only [hdi, hlr]
          rw [he]
          exact ih heap hd
        | some d =>
          have he : bm25CollectLoop docs scores (i :: is) heap =
              (heap.cells.length ::
                 (bm25CollectLoop docs scores is
                   ⟨heap.cells ++ [alistSet d "score" (.num (scoreAt scores i))]⟩).1,
               (bm25CollectLoop docs scores is
                   ⟨heap.cells ++ [alistSet d "score" (.num (scoreAt scores i))]⟩).2) := by
            simp only [bm25CollectLoop]
            rw [if_pos hs]
            simp only [hdi, hlr, Heap.alloc]
          obtain ⟨ext, hext, hres⟩ := ih
            ⟨heap.cells ++ [alistSet d "score" (.num (scoreAt scores i))]⟩
            (fun rr hrr => lt_of_lt_of_le (hd rr hrr)
              (show heap.cells.length ≤
                  (heap.cells ++ [alistSet d "score" (.num (scoreAt scores i))]).length by
                rw [List.length_append]
                exact Nat.le_add_right _ _))
          have hext2 : (bm25CollectLoop docs scores is
              ⟨heap.cells ++ [alistSet d "score" (.num (scoreAt scores i))]⟩).2.cells =
              heap.cells ++ ([alistSet d "score" (.num (scoreAt scores i))] ++ ext) := by
            rw [hext]
            simp
          refine ⟨alistSet d "score" (.num (scoreAt scores i)) :: ext, ?_, ?_⟩
          · rw [he]
            exact hext2
          · intro r' hr'
            rw [he] at hr'
            rcases List.mem_cons.mp hr' with hh | ht
            · subst hh
              refine ⟨le_refl _, r, List.getElem?_mem hdi, d, scoreAt scores i, hlr, ?_⟩
              rw [he]
              exact look_at_boundary _ heap.cells _ ext hext2
            · obtain ⟨hle, rd0, hrd0, d0, s0, hlook0, hres0⟩ := hres r' ht
              have hle2 : heap.cells.length ≤ r' := by
                have hle3 : (heap.cells ++
                    [alistSet d "score" (.num (scoreAt scores i))]).length ≤ r' := hle
                rw [List.length_append] at hle3
                omega
              have hlook0a : heap.look rd0 = some d0 := by
                rw [← look_of_extends heap
                  ⟨heap.cells ++ [alistSet d "score" (.num (scoreAt scores i))]⟩
                  [alistSet d "score" (.num (scoreAt scores i))] rfl rd0 (hd rd0 hrd0)]
                exact hlook0
              refine ⟨hle2, rd0, hrd0, d0, s0, hlook0a, ?_⟩
              rw [he]
              exact hres0
    · have he : bm25CollectLoop docs scores (i :: is) heap =
          bm25CollectLoop docs scores is heap := by
        simp only [bm25CollectLoop]
        rw [if_neg hs]
      rw [he]
      exact ih heap hd

/-- Shape of InMemoryBM25.search on a fitted non-empty index: the state
component is returned unchanged and the heap comes from the collection
loop over the top-k score-sorted indices. -/
theorem bm25Search_eq (getScores : List String → List ℚ) (st : BM25State) (heap : Heap)
    (query : String) (topk : Nat) (hg : ¬ (¬ st.fitted = true ∨ st.documents.isEmpty = true)) :
    bm25Search getScores st heap query topk =
      ((bm25CollectLoop st.documents (getScores (pyTokenize query))
          ((List.insertionSort (fun i j =>
              scoreAt (getScores (pyTokenize query)) j ≤
                scoreAt (getScores (pyTokenize query)) i)
            (List.range (getScores (pyTokenize query)).length)).take topk) heap).1,
       st,
       (bm25CollectLoop st.documents (getScores (pyTokenize query))
          ((List.insertionSort (fun i j =>
              scoreAt (getScores (pyTokenize query)) j ≤
                scoreAt (getScores (pyTokenize query)) i)
            (List.range (getScores (pyTokenize query)).length)).take topk) heap).2) := by
  simp only [bm25Search]
  rw [if_neg hg]

/-- C10: InMemoryBM25.search leaves the index state unchanged (the same
documents, tokenized_docs, and fitted model), never changes the content
of any stored document, and every returned result is a freshly
allocated copy of a stored document (the stored dict with a score field
written into the copy) whose reference is outside the stored reference
set; consequently mutating any returned result in place, as the hybrid
retriever and rerank wrapper do when attaching scores, leaves every
stored document's content exactly as it was before the call.  The
hypothesis says every stored reference points into the heap, which
add_documents guarantees. -/
theorem c10_bm25_search_frame (getScores : List String → List ℚ) (st : BM25State)
    (heap : Heap) (query : String) (topk : Nat)
    (hd : ∀ r ∈ st.documents, r < heap.cells.length) :
    (bm25Search getScores st heap query topk).2.1 = st ∧
    (∃ ext, (bm25Search getScores st heap query topk).2.2.cells = heap.cells ++ ext) ∧
    (∀ rd ∈ st.documents,
      (bm25Search getScores st heap query topk).2.2.look rd = heap.look rd) ∧
    ∀ r' ∈ (bm25Search getScores st heap query topk).1,
      r' ∉ st.documents ∧
      (∃ rd, rd ∈ st.documents ∧ ∃ d s, heap.look rd = some d ∧
        (bm25Search getScores st heap query topk).2.2.look r' =
          some (alistSet d "score" (.num s))) ∧
      ∀ d' rd, rd ∈ st.documents →
        ((bm25Search getScores st heap query topk).2.2.mutate r' d').look rd =
          heap.look rd := by
  by_cases hg : ¬ st.fitted = true ∨ st.documents.isEmpty = true
  · have he : bm25Search getScores st heap query topk = ([], st, heap) := by
      simp only [bm25Search]
      rw [if_pos hg]
    rw [he]
    refine ⟨rfl, ⟨[], by simp⟩, fun rd _ => rfl, ?_⟩
    intro r' hr'
    exact absurd hr' (List.not_mem_nil r')
  · rw [bm25Search_eq getScores st heap query topk hg]
    obtain ⟨ext, hext, hres⟩ := bm25CollectLoop_spec st.documents
      (getScores (pyTokenize query))
      ((List.insertionSort (fun i j =>
          scoreAt (getScores (pyTokenize query)) j ≤
            scoreAt (getScores (pyTokenize query)) i)
        (List.range (getScores (pyTokenize query)).length)).take topk) heap hd
    refine ⟨rfl, ⟨ext, hext⟩, ?_, ?_⟩
    · intro rd hrd
      exact look_of_extends heap _ ext hext rd (hd rd hrd)
    · intro r' hr'
      obtain ⟨hle, rd0, hrd0, d0, s0, hlook0, hres0⟩ := hres r' hr'
      refine ⟨?_, ⟨rd0, hrd0, d0, s0, hlook0, hres0⟩, ?_⟩
      · intro hmem
        exact absurd (hd r' hmem) (not_lt.mpr hle)
      · intro d' rd hrd
        have hne : r' ≠ rd := by
          intro hEq
          exact absurd (hd rd hrd) (not_lt.mpr (hEq ▸ hle))
        rw [look_mutate_ne _ r' rd d' hne]
        exact look_of_extends heap _ ext hext rd (hd rd hrd)

/-- C10 witness: searching the concrete two-document index returns the
state untouched, both stored documents unchanged, and only fresh
copies, mutation of which cannot reach the stored documents. -/
theorem c10_witness :
    (∀ r ∈ c10St.documents, r < c10Heap.cells.length) ∧
    ((bm25Search (fun _ => [2, 1]) c10St c10Heap "a" 5).2.1 = c10St ∧
     (∃ ext, (bm25Search (fun _ => [2, 1]) c10St c10Heap "a" 5).2.2.cells =
        c10Heap.cells ++ ext) ∧
     (∀ rd ∈ c10St.documents,
        (bm25Search (fun _ => [2, 1]) c10St c10Heap "a" 5).2.2.look rd = c10Heap.look rd) ∧
     ∀ r' ∈ (bm25Search (fun _ => [2, 1]) c10St c10Heap "a" 5).1,
       r' ∉ c10St.documents ∧
       (∃ rd, rd ∈ c10St.documents ∧ ∃ d s, c10Heap.look rd = some d ∧
         (bm25Search (fun _ => [2, 1]) c10St c10Heap "a" 5).2.2.look r' =
           some (alistSet d "score" (.num s))) ∧
       ∀ d' rd, rd ∈ c10St.documents →
         ((bm25Search (fun _ => [2, 1]) c10St c10Heap "a" 5).2.2.mutate r' d').look rd =
           c10Heap.look rd) :=
  ⟨by decide, c10_bm25_search_frame (fun _ => [2, 1]) c10St c10Heap "a" 5 (by decide)⟩

end Rag
